import Mathlib

/-!
Verification of `substrate/state-machine/src/changes_trie/build.rs`.

The core under verification is the input-preparation algorithm for one block's
changes trie: `prepare_input`, `prepare_extrinsics_input` and
`prepare_digest_input`.  Machine integers (`u32` extrinsic ordinals, `u64`
block numbers, `u8` key bytes) are embedded as `Nat`; no arithmetic in the
core can overflow since the code only compares, stores and formats them.
External collaborators (the backend, the overlay's value view, the digest
build iterator, the historical trie storage and the key codec) live outside
the file under `src/` and are embedded as explicit parameters or, where the
spec fixes their behaviour, as definitions modelled from the spec.

Rust's `BTreeMap<Vec<u8>, BTreeSet<_>>` is embedded as an association list
kept strictly sorted by lexicographic byte order, and `BTreeSet` as a strictly
sorted `List Nat`; the insertion operations below mirror `entry(..).or_default()`
followed by `extend` / `insert`.
-/

/-- Strict lexicographic order on byte sequences: the order `BTreeMap<Vec<u8>, _>`
keys are maintained in. -/
def bytesLt : List Nat → List Nat → Bool
  | [], [] => false
  | [], _ :: _ => true
  | _ :: _, [] => false
  | a :: as, b :: bs => if a < b then true else if b < a then false else bytesLt as bs

/-- Rust `BTreeSet<Nat>::insert`: insertion into a strictly ascending list. -/
def setInsert (x : Nat) : List Nat → List Nat
  | [] => [x]
  | y :: ys =>
    if x < y then x :: y :: ys
    else if y < x then y :: setInsert x ys
    else y :: ys

/-- Rust `BTreeSet::extend`: insert every element of `xs`. -/
def setExtend (s : List Nat) (xs : List Nat) : List Nat :=
  xs.foldl (fun acc x => setInsert x acc) s

/-- One entry of a `BTreeMap<Vec<u8>, BTreeSet<Nat>>`; the whole map is a list of
entries kept strictly ascending by `bytesLt` on the key. -/
abbrev SMap := List (List Nat × List Nat)

/-- Rust `BTreeMap::get`, as used to state lemmas about accumulated maps. -/
def mapLookup (k : List Nat) : SMap → Option (List Nat)
  | [] => none
  | (k', v) :: rest => if k = k' then some v else mapLookup k rest

/-- Rust `map.entry(k).or_default().extend(xs)`: find or create the sorted-set entry
for `k` and insert every element of `xs` into it, keeping keys sorted. -/
def mapExtend (k : List Nat) (xs : List Nat) : SMap → SMap
  | [] => [(k, setExtend [] xs)]
  | (k', v) :: rest =>
    if bytesLt k k' then (k, setExtend [] xs) :: (k', v) :: rest
    else if bytesLt k' k then (k', v) :: mapExtend k xs rest
    else (k', setExtend v xs) :: rest

/-- Keys strictly ascending in `bytesLt`: the `BTreeMap` representation invariant. -/
def MapSorted (m : SMap) : Prop :=
  List.Pairwise (fun a b => bytesLt a.1 b.1 = true) m

/-- Changes-trie `Configuration` (digest hierarchy parameters). -/
structure Configuration where
  digest_interval : Nat
  digest_levels : Nat
deriving DecidableEq

/-- Key of an `ExtrinsicIndex` changes-trie entry: target block plus storage key. -/
structure ExtrinsicIndex where
  block : Nat
  key : List Nat
deriving DecidableEq

/-- Key of a `DigestIndex` changes-trie entry: target block plus storage key. -/
structure DigestIndex where
  block : Nat
  key : List Nat
deriving DecidableEq

/-- Tagged union of the two changes-trie key kinds. -/
inductive InputKey where
  | ExtrinsicIndex : ExtrinsicIndex → InputKey
  | DigestIndex : DigestIndex → InputKey
deriving DecidableEq

/-- A changes-trie input pair: a key of either kind with its value list
(extrinsic ordinals, resp. contributing block numbers). -/
inductive InputPair where
  | ExtrinsicIndex : ExtrinsicIndex → List Nat → InputPair
  | DigestIndex : DigestIndex → List Nat → InputPair
deriving DecidableEq

/-- Per-block extrinsic-change record carried by the overlay. -/
structure ExtrinsicChanges where
  changes_trie_config : Configuration
  block : Nat
  extrinsic_index : Nat
  prospective : List (List Nat × List Nat)
  committed : List (List Nat × List Nat)

/-- The pending-change overlay: prospective and committed value maps
(`some v` = pending write, `none` = pending deletion) plus the optional
extrinsic-change record. -/
structure OverlayedChanges where
  prospective : List (List Nat × Option (List Nat))
  committed : List (List Nat × Option (List Nat))
  extrinsic_changes : Option ExtrinsicChanges

/-- First association of `k` in an association list. -/
def assocLookup {α : Type} (k : List Nat) : List (List Nat × α) → Option α
  | [] => none
  | (k', v) :: rest => if k = k' then some v else assocLookup k rest

/-- Modelled from the spec: `OverlayedChanges::storage` (overlayed_changes.rs is
not under src/).  Outer option = "no opinion", inner option = value or deletion
tombstone; the prospective (uncommitted) layer takes precedence over the
committed one. -/
def OverlayedChanges.storage (changes : OverlayedChanges) (key : List Nat) :
    Option (Option (List Nat)) :=
  match assocLookup key changes.prospective with
  | some v => some v
  | none => assocLookup key changes.committed

/-- The `Backend` collaborator, reduced to the single operation the core uses:
`exists_storage`, existence of a key at the start of the block. -/
structure Backend where
  exists_storage : List Nat → Except String Bool

/-- The historical changes-trie `Storage` collaborator: `root` resolves a past
block's trie root; `trieKeys` gives the raw keys stored under a root, in the
storage's deterministic enumeration order. -/
structure Storage where
  root : Nat → Except String (Option Nat)
  trieKeys : Nat → List (List Nat)

/-- Modelled from the spec: fixed-width byte serialization of a `u64` block
number, part of the `InputKey` codec (input.rs is not under src/). -/
def blockBytes (b : Nat) : List Nat :=
  [b % 256, b / 256 % 256, b / 256 ^ 2 % 256, b / 256 ^ 3 % 256,
   b / 256 ^ 4 % 256, b / 256 ^ 5 % 256, b / 256 ^ 6 % 256, b / 256 ^ 7 % 256]

/-- Modelled from the spec: inverse of `blockBytes` (little-endian). -/
def bytesToBlock (l : List Nat) : Nat :=
  l.foldr (fun byte acc => byte % 256 + 256 * acc) 0

/-- Modelled from the spec: `ExtrinsicIndex::key_neutral_prefix` — the encoded
key fragment shared by every `ExtrinsicIndex` entry of one block (discriminant
byte then block bytes). -/
def ExtrinsicIndex.keyNeutralPfx (block : Nat) : List Nat :=
  1 :: blockBytes block

/-- Modelled from the spec: `DigestIndex::key_neutral_prefix`. -/
def DigestIndex.keyNeutralPfx (block : Nat) : List Nat :=
  2 :: blockBytes block

/-- Modelled from the spec: serialization of an `InputKey` (discriminant byte,
block bytes, raw storage key). -/
def InputKey.encode : InputKey → List Nat
  | InputKey.ExtrinsicIndex k => 1 :: (blockBytes k.block ++ k.key)
  | InputKey.DigestIndex k => 2 :: (blockBytes k.block ++ k.key)

/-- Modelled from the spec: `Decode::decode` for `InputKey` — validates the
discriminant, recovers block and storage key, and signals failure with `none`
on malformed bytes. -/
def decodeInputKey : List Nat → Option InputKey
  | [] => none
  | t :: rest =>
    if rest.length < 8 then none
    else if t = 1 then
      some (InputKey.ExtrinsicIndex ⟨bytesToBlock (rest.take 8), rest.drop 8⟩)
    else if t = 2 then
      some (InputKey.DigestIndex ⟨bytesToBlock (rest.take 8), rest.drop 8⟩)
    else none

/-- Embeds `TrieBackendEssence::for_keys_with_prefix` on the trie rooted at `r`:
the raw keys visited by the prefix scan, in storage order. -/
def Storage.keysWithPfx (storage : Storage) (r : Nat) (p : List Nat) :
    List (List Nat) :=
  (storage.trieKeys r).filter (fun k => p.isPrefixOf k)

/-- Embeds `changes.storage(key).map(|v| v.is_some()).unwrap_or_default()`: whether
the overlay's final value for `key` is a live `Some`. -/
def finalValueIsSome (changes : OverlayedChanges) (key : List Nat) : Bool :=
  ((changes.storage key).map Option.isSome).getD false

/-- The accumulation loop of `prepare_extrinsics_input` over
`prospective.iter().chain(committed.iter())`: skip a key whose final overlay
value is absent and which the backend reports as not existing; a backend error
aborts; otherwise `entry(key).or_default().extend(extrinsics)`. -/
def buildExtrinsicMap (backend : Backend) (changes : OverlayedChanges) (m : SMap) :
    List (List Nat × List Nat) → Except String SMap
  | [] => Except.ok m
  | (key, extrinsics) :: rest =>
    if finalValueIsSome changes key then
      buildExtrinsicMap backend changes (mapExtend key extrinsics m) rest
    else
      match backend.exists_storage key with
      | Except.error e => Except.error e
      | Except.ok true => buildExtrinsicMap backend changes (mapExtend key extrinsics m) rest
      | Except.ok false => buildExtrinsicMap backend changes m rest

/-- Embeds `prepare_extrinsics_input`: build the extrinsic map, then emit one
`ExtrinsicIndex` pair per entry, keyed to the overlay's target block. -/
def prepare_extrinsics_input (backend : Backend) (changes : OverlayedChanges)
    (extrinsic_changes : ExtrinsicChanges) : Except String (List InputPair) :=
  match buildExtrinsicMap backend changes []
      (extrinsic_changes.prospective ++ extrinsic_changes.committed) with
  | Except.error e => Except.error e
  | Except.ok extrinsic_map =>
    Except.ok (extrinsic_map.map fun kv =>
      InputPair.ExtrinsicIndex ⟨extrinsic_changes.block, kv.1⟩ kv.2)

/-- Body of the extrinsic-prefix scan closure: keys that decode to an
`ExtrinsicIndex` key record the scanned block
(`digest_map.entry(trie_key.key).or_default().insert(digest_build_block)`,
embedded as `mapExtend _ [b]`); anything else is skipped. -/
def scanStepExt (b : Nat) (acc : SMap) (key : List Nat) : SMap :=
  match decodeInputKey key with
  | some (InputKey.ExtrinsicIndex trie_key) => mapExtend trie_key.key [b] acc
  | _ => acc

/-- Body of the digest-prefix scan closure: keys that decode to a
`DigestIndex` key record the scanned block; anything else is skipped. -/
def scanStepDig (b : Nat) (acc : SMap) (key : List Nat) : SMap :=
  match decodeInputKey key with
  | some (InputKey.DigestIndex trie_key) => mapExtend trie_key.key [b] acc
  | _ => acc

/-- The loop of `prepare_digest_input` over the digest build iterator's output:
resolve each historical block's trie root (missing root or storage error
aborts), then fold both prefix scans into the accumulated digest map. -/
def digestLoop (storage : Storage) (m : SMap) : List Nat → Except String SMap
  | [] => Except.ok m
  | digest_build_block :: rest =>
    match storage.root digest_build_block with
    | Except.error e => Except.error e
    | Except.ok none =>
      Except.error ("No changes trie root for block " ++ toString digest_build_block)
    | Except.ok (some trie_root) =>
      let m1 := (storage.keysWithPfx trie_root
        (ExtrinsicIndex.keyNeutralPfx digest_build_block)).foldl
          (scanStepExt digest_build_block) m
      let m2 := (storage.keysWithPfx trie_root
        (DigestIndex.keyNeutralPfx digest_build_block)).foldl
          (scanStepDig digest_build_block) m1
      digestLoop storage m2 rest

/-- Embeds `prepare_digest_input`: fold every block yielded by the digest build
iterator into the digest map, then emit one `DigestIndex` pair per entry,
keyed to the target block.  The digest build iterator is an external pure
collaborator and is passed in as a function. -/
def prepare_digest_input (digest_build_iterator : Configuration → Nat → List Nat)
    (block : Nat) (config : Configuration) (storage : Storage) :
    Except String (List InputPair) :=
  match digestLoop storage [] (digest_build_iterator config block) with
  | Except.error e => Except.error e
  | Except.ok digest_map =>
    Except.ok (digest_map.map fun kv => InputPair.DigestIndex ⟨block, kv.1⟩ kv.2)

/-- Embeds `prepare_input`: orchestrator.  `Ok none` when no historical storage handle
or no extrinsic-change record is present; otherwise the extrinsic pairs
followed by the digest pairs, any error propagating. -/
def prepare_input (digest_build_iterator : Configuration → Nat → List Nat)
    (backend : Backend) (storage : Option Storage) (changes : OverlayedChanges) :
    Except String (Option (List InputPair)) :=
  match storage with
  | none => Except.ok none
  | some storage =>
    match changes.extrinsic_changes with
    | none => Except.ok none
    | some extrinsic_changes =>
      match prepare_extrinsics_input backend changes extrinsic_changes with
      | Except.error e => Except.error e
      | Except.ok ext_pairs =>
        match prepare_digest_input digest_build_iterator extrinsic_changes.block
            extrinsic_changes.changes_trie_config storage with
        | Except.error e => Except.error e
        | Except.ok dig_pairs => Except.ok (some (ext_pairs ++ dig_pairs))

/-- Storage key carried by an input pair. -/
def InputPair.pairKey : InputPair → List Nat
  | InputPair.ExtrinsicIndex k _ => k.key
  | InputPair.DigestIndex k _ => k.key

/-- Value list (ordinals or contributing blocks) carried by an input pair. -/
def InputPair.pairVal : InputPair → List Nat
  | InputPair.ExtrinsicIndex _ v => v
  | InputPair.DigestIndex _ v => v

/-- Block number in an input pair's key. -/
def InputPair.pairBlock : InputPair → Nat
  | InputPair.ExtrinsicIndex k _ => k.block
  | InputPair.DigestIndex k _ => k.block

/-- Whether an input pair is of the `ExtrinsicIndex` kind. -/
def InputPair.isExt : InputPair → Bool
  | InputPair.ExtrinsicIndex _ _ => true
  | InputPair.DigestIndex _ _ => false

/-- The retention filter of `prepare_extrinsics_input`: keep a key when its
final overlay value is live, or when the backend reports it existed at block
start. -/
def retained (backend : Backend) (changes : OverlayedChanges) (key : List Nat) : Bool :=
  finalValueIsSome changes key ||
    match backend.exists_storage key with
    | Except.ok true => true
    | _ => false

/-- Both scan-closure bodies either leave the accumulator unchanged (skipped
key) or record the scanned block for some storage key. -/
def ScanStep (f : SMap → List Nat → SMap) (b : Nat) : Prop :=
  ∀ acc key, f acc key = acc ∨ ∃ kk, f acc key = mapExtend kk [b] acc

/-- The in-memory backend of the `build.rs` unit tests: keys `100..=105` exist. -/
def backendT : Backend :=
  ⟨fun k => Except.ok (decide (k ∈ [[100], [101], [102], [103], [104], [105]]))⟩

/-- The extrinsic-change record of the `build.rs` unit tests, for a chosen block. -/
def ecT (block : Nat) : ExtrinsicChanges :=
  { changes_trie_config := ⟨4, 2⟩
    block := block
    extrinsic_index := 0
    prospective := [([100], [0, 2]), ([103], [0, 1])]
    committed := [([100], [3]), ([101], [1])] }

/-- The overlay of the `build.rs` unit tests, for a chosen block. -/
def changesT (block : Nat) : OverlayedChanges :=
  { prospective := [([100], some [200]), ([103], none)]
    committed := [([100], some [202]), ([101], some [203])]
    extrinsic_changes := some (ecT block) }

/-- The historical storage of the `build.rs` unit tests: tries for blocks
`1..=15` (root of block `b` abstracted as `b`), holding the encoded keys of the
fixture's input pairs. -/
def storageT : Storage :=
  { root := fun b => if b ≤ 15 ∧ 1 ≤ b then Except.ok (some b) else Except.ok none
    trieKeys := fun r =>
      if r = 1 then
        [InputKey.encode (InputKey.ExtrinsicIndex ⟨1, [100]⟩),
         InputKey.encode (InputKey.ExtrinsicIndex ⟨1, [101]⟩),
         InputKey.encode (InputKey.ExtrinsicIndex ⟨1, [105]⟩)]
      else if r = 2 then
        [InputKey.encode (InputKey.ExtrinsicIndex ⟨2, [102]⟩)]
      else if r = 3 then
        [InputKey.encode (InputKey.ExtrinsicIndex ⟨3, [100]⟩),
         InputKey.encode (InputKey.ExtrinsicIndex ⟨3, [105]⟩)]
      else if r = 4 then
        [InputKey.encode (InputKey.ExtrinsicIndex ⟨4, [100]⟩),
         InputKey.encode (InputKey.ExtrinsicIndex ⟨4, [101]⟩),
         InputKey.encode (InputKey.ExtrinsicIndex ⟨4, [103]⟩),
         InputKey.encode (InputKey.DigestIndex ⟨4, [100]⟩),
         InputKey.encode (InputKey.DigestIndex ⟨4, [101]⟩),
         InputKey.encode (InputKey.DigestIndex ⟨4, [102]⟩),
         InputKey.encode (InputKey.DigestIndex ⟨4, [105]⟩)]
      else if r = 6 then
        [InputKey.encode (InputKey.ExtrinsicIndex ⟨6, [105]⟩)]
      else if r = 8 then
        [InputKey.encode (InputKey.DigestIndex ⟨8, [105]⟩)]
      else [] }

/-- Digest build iterator instance matching the fixture's configuration
(interval 4, levels 2): block 4 folds leaf blocks 1–3, block 16 folds the
level-1 digest blocks 4, 8, 12. -/
def dbiT : Configuration → Nat → List Nat := fun _ block =>
  if block = 4 then [1, 2, 3]
  else if block = 8 then [5, 6, 7]
  else if block = 16 then [4, 8, 12]
  else []

/-- Storage whose tries are all absent: every root lookup answers `Ok(None)`. -/
def storageNoRoots : Storage :=
  { root := fun _ => Except.ok none, trieKeys := fun _ => [] }

/-- An overlay with no extrinsic-change record. -/
def noneChangesT : OverlayedChanges :=
  { prospective := [], committed := [], extrinsic_changes := none }

/-- Extrinsic-change record carrying an empty ordinal set for a live key. -/
def ecC6 : ExtrinsicChanges :=
  { changes_trie_config := ⟨4, 2⟩
    block := 1
    extrinsic_index := 0
    prospective := [([100], [])]
    committed := [] }

/-- Overlay for the empty-ordinal-set scenario: key `100` has a live value. -/
def changesC6 : OverlayedChanges :=
  { prospective := [([100], some [1])], committed := [], extrinsic_changes := some ecC6 }

/-- Backend that fails on the live keys `100` and `101` but agrees with the
fixture backend elsewhere. -/
def backendU : Backend :=
  ⟨fun k => if k = [100] ∨ k = [101] then Except.error "unused" else
    backendT.exists_storage k⟩

/-- Backend that fails on the absent-valued key `103`. -/
def backendV : Backend :=
  ⟨fun k => if k = [103] then Except.error "boom" else Except.ok true⟩

theorem bytesLt_irrefl (a : List Nat) : bytesLt a a = false := by
  induction a with
  | nil => rfl
  | cons x xs ih => simp [bytesLt, ih]

theorem bytesLt_trichotomy (a b : List Nat)
    (hab : bytesLt a b = false) (hba : bytesLt b a = false) : a = b := by
  induction a generalizing b with
  | nil => cases b with
    | nil => rfl
    | cons y ys => simp [bytesLt] at hab
  | cons x xs ih =>
    cases b with
    | nil => simp [bytesLt] at hba
    | cons y ys =>
      simp only [bytesLt] at hab hba
      by_cases hxy : x < y
      · simp [hxy] at hab
      · by_cases hyx : y < x
        · simp [hxy, hyx] at hab hba
        · have hx : x = y := Nat.le_antisymm (Nat.le_of_not_lt hyx) (Nat.le_of_not_lt hxy)
          subst hx
          simp only [Nat.lt_irrefl, if_false] at hab hba
          rw [ih ys hab hba]

theorem bytesLt_trans {a b c : List Nat}
    (hab : bytesLt a b = true) (hbc : bytesLt b c = true) : bytesLt a c = true := by
  induction a generalizing b c with
  | nil =>
    cases b with
    | nil => simp [bytesLt] at hab
    | cons y ys =>
      cases c with
      | nil => simp [bytesLt] at hbc
      | cons z zs => rfl
  | cons x xs ih =>
    cases b with
    | nil => simp [bytesLt] at hab
    | cons y ys =>
      cases c with
      | nil => simp [bytesLt] at hbc
      | cons z zs =>
        simp only [bytesLt] at hab hbc ⊢
        by_cases hxy : x < y
        · by_cases hyz : y < z
          · simp [Nat.lt_trans hxy hyz]
          · by_cases hzy : z < y
            · simp [hyz, hzy] at hbc
            · have : y = z := Nat.le_antisymm (Nat.le_of_not_lt hzy) (Nat.le_of_not_lt hyz)
              subst this
              simp [hxy]
        · by_cases hyx : y < x
          · simp [hxy, hyx] at hab
          · have : x = y := Nat.le_antisymm (Nat.le_of_not_lt hyx) (Nat.le_of_not_lt hxy)
            subst this
            simp only [Nat.lt_irrefl, if_false] at hab
            by_cases hyz : x < z
            · simp [hyz]
            · by_cases hzy : z < x
              · simp [hyz, hzy] at hbc
              · have : x = z := Nat.le_antisymm (Nat.le_of_not_lt hzy) (Nat.le_of_not_lt hyz)
                subst this
                simp only [Nat.lt_irrefl, if_false] at hbc ⊢
                exact ih hab hbc

theorem bytesLt_asymm {a b : List Nat} (h : bytesLt a b = true) : bytesLt b a = false := by
  by_contra hba
  have hba' : bytesLt b a = true := by
    cases hb : bytesLt b a
    · exact absurd hb hba
    · rfl
  have := bytesLt_trans h hba'
  rw [bytesLt_irrefl] at this
  exact Bool.noConfusion this

theorem mem_setInsert (a x : Nat) (s : List Nat) :
    a ∈ setInsert x s ↔ a = x ∨ a ∈ s := by
  induction s with
  | nil => simp [setInsert]
  | cons y ys ih =>
    simp only [setInsert]
    by_cases hxy : x < y
    · simp [hxy]
    · by_cases hyx : y < x
      · simp only [hxy, if_false, hyx, if_true, List.mem_cons, ih]
        tauto
      · have : x = y := Nat.le_antisymm (Nat.le_of_not_lt hyx) (Nat.le_of_not_lt hxy)
        subst this
        simp only [Nat.lt_irrefl, if_false, List.mem_cons]
        tauto

theorem sorted_setInsert (x : Nat) (s : List Nat)
    (hs : List.Sorted (· < ·) s) : List.Sorted (· < ·) (setInsert x s) := by
  induction s with
  | nil => simp [setInsert]
  | cons y ys ih =>
    rw [List.sorted_cons] at hs
    obtain ⟨hy, hys⟩ := hs
    simp only [setInsert]
    by_cases hxy : x < y
    · rw [if_pos hxy, List.sorted_cons]
      refine ⟨?_, ?_⟩
      · intro b hb
        rcases List.mem_cons.mp hb with hb | hb
        · exact hb ▸ hxy
        · exact Nat.lt_trans hxy (hy b hb)
      · rw [List.sorted_cons]; exact ⟨hy, hys⟩
    · by_cases hyx : y < x
      · rw [if_neg hxy, if_pos hyx, List.sorted_cons]
        refine ⟨?_, ih hys⟩
        intro b hb
        rcases (mem_setInsert b x ys).mp hb with hb | hb
        · exact hb ▸ hyx
        · exact hy b hb
      · rw [if_neg hxy, if_neg hyx, List.sorted_cons]
        exact ⟨hy, hys⟩

theorem mem_setExtend (a : Nat) (s xs : List Nat) :
    a ∈ setExtend s xs ↔ a ∈ s ∨ a ∈ xs := by
  induction xs generalizing s with
  | nil => simp [setExtend]
  | cons x xs ih =>
    simp only [setExtend, List.foldl_cons]
    rw [show (List.foldl (fun acc x => setInsert x acc) (setInsert x s) xs)
          = setExtend (setInsert x s) xs from rfl, ih, mem_setInsert]
    simp only [List.mem_cons]
    tauto

theorem sorted_setExtend (s xs : List Nat)
    (hs : List.Sorted (· < ·) s) : List.Sorted (· < ·) (setExtend s xs) := by
  induction xs generalizing s with
  | nil => exact hs
  | cons x xs ih =>
    simp only [setExtend, List.foldl_cons]
    exact ih (setInsert x s) (sorted_setInsert x s hs)

theorem mapLookup_none (k : List Nat) (m : SMap)
    (h : ∀ e ∈ m, k ≠ e.1) : mapLookup k m = none := by
  induction m with
  | nil => rfl
  | cons e rest ih =>
    obtain ⟨ke, ve⟩ := e
    simp only [mapLookup]
    rw [if_neg (h (ke, ve) (List.mem_cons_self _ _))]
    exact ih fun e' he' => h e' (List.mem_cons_of_mem _ he')

theorem keys_mapExtend (k : List Nat) (xs : List Nat) (m : SMap) :
    ∀ e ∈ mapExtend k xs m, e.1 = k ∨ e.1 ∈ m.map Prod.fst := by
  induction m with
  | nil =>
    intro e he
    simp only [mapExtend, List.mem_singleton] at he
    left; rw [he]
  | cons hd rest ih =>
    obtain ⟨ke, ve⟩ := hd
    intro e he
    simp only [mapExtend] at he
    by_cases hlt : bytesLt k ke
    · rw [if_pos hlt] at he
      rcases List.mem_cons.mp he with h | h
      · left; rw [h]
      · right
        rcases List.mem_cons.mp h with h | h
        · rw [h]; exact List.mem_cons_self _ _
        · exact List.mem_cons_of_mem _ (List.mem_map_of_mem Prod.fst h)
    · by_cases hgt : bytesLt ke k
      · rw [if_neg hlt, if_pos hgt] at he
        rcases List.mem_cons.mp he with h | h
        · right; rw [h]; exact List.mem_cons_self _ _
        · rcases ih e h with h' | h'
          · left; exact h'
          · right; exact List.mem_cons_of_mem _ h'
      · rw [if_neg hlt, if_neg hgt] at he
        rcases List.mem_cons.mp he with h | h
        · right; rw [h]; exact List.mem_cons_self _ _
        · right; exact List.mem_cons_of_mem _ (List.mem_map_of_mem Prod.fst h)

theorem mapSorted_mapExtend (k : List Nat) (xs : List Nat) (m : SMap)
    (hm : MapSorted m) : MapSorted (mapExtend k xs m) := by
  induction m with
  | nil => simp [mapExtend, MapSorted]
  | cons hd rest ih =>
    obtain ⟨ke, ve⟩ := hd
    rw [MapSorted, List.pairwise_cons] at hm
    obtain ⟨hke, hrest⟩ := hm
    simp only [mapExtend]
    by_cases hlt : bytesLt k ke
    · rw [if_pos hlt, MapSorted, List.pairwise_cons]
      refine ⟨?_, ?_⟩
      · intro e he
        rcases List.mem_cons.mp he with h | h
        · rw [h]; exact hlt
        · exact bytesLt_trans hlt (hke e h)
      · rw [List.pairwise_cons]; exact ⟨hke, hrest⟩
    · by_cases hgt : bytesLt ke k
      · rw [if_neg hlt, if_pos hgt, MapSorted, List.pairwise_cons]
        refine ⟨?_, ih hrest⟩
        intro e he
        rcases keys_mapExtend k xs rest e he with h | h
        · rw [h]; exact hgt
        · obtain ⟨e', he', he''⟩ := List.mem_map.mp h
          have := hke e' he'
          rw [he''] at this
          exact this
      · rw [if_neg hlt, if_neg hgt, MapSorted, List.pairwise_cons]
        exact ⟨hke, hrest⟩

theorem valuesSorted_mapExtend (k : List Nat) (xs : List Nat) (m : SMap)
    (hm : ∀ e ∈ m, List.Sorted (· < ·) e.2) :
    ∀ e ∈ mapExtend k xs m, List.Sorted (· < ·) e.2 := by
  induction m with
  | nil =>
    intro e he
    simp only [mapExtend, List.mem_singleton] at he
    rw [he]
    exact sorted_setExtend [] xs (List.sorted_nil)
  | cons hd rest ih =>
    obtain ⟨ke, ve⟩ := hd
    intro e he
    simp only [mapExtend] at he
    by_cases hlt : bytesLt k ke
    · rw [if_pos hlt] at he
      rcases List.mem_cons.mp he with h | h
      · rw [h]; exact sorted_setExtend [] xs List.sorted_nil
      · exact hm e h
    · by_cases hgt : bytesLt ke k
      · rw [if_neg hlt, if_pos hgt] at he
        rcases List.mem_cons.mp he with h | h
        · rw [h]; exact hm (ke, ve) (List.mem_cons_self _ _)
        · exact ih (fun e' he' => hm e' (List.mem_cons_of_mem _ he')) e h
      · rw [if_neg hlt, if_neg hgt] at he
        rcases List.mem_cons.mp he with h | h
        · rw [h]
          exact sorted_setExtend ve xs (hm (ke, ve) (List.mem_cons_self _ _))
        · exact hm e (List.mem_cons_of_mem _ h)

theorem mapLookup_mapExtend (k k' : List Nat) (xs : List Nat) (m : SMap)
    (hm : MapSorted m) :
    mapLookup k' (mapExtend k xs m) =
      if k' = k then some (setExtend ((mapLookup k m).getD []) xs)
      else mapLookup k' m := by
  induction m with
  | nil =>
    by_cases h : k' = k <;> simp [mapExtend, mapLookup, h]
  | cons hd rest ih =>
    obtain ⟨ke, ve⟩ := hd
    rw [MapSorted, List.pairwise_cons] at hm
    obtain ⟨hke, hrest⟩ := hm
    simp only [mapExtend]
    by_cases hlt : bytesLt k ke
    · rw [if_pos hlt]
      have hkne : k ≠ ke := by
        intro h; rw [h, bytesLt_irrefl] at hlt; exact Bool.noConfusion hlt
      have hnone : mapLookup k ((ke, ve) :: rest) = none := by
        apply mapLookup_none
        intro e he
        rcases List.mem_cons.mp he with h | h
        · rw [h]; exact hkne
        · intro hk
          have := bytesLt_trans hlt (hke e h)
          rw [hk, bytesLt_irrefl] at this
          exact Bool.noConfusion this
      by_cases h : k' = k
      · subst h
        rw [hnone]
        simp [mapLookup]
      · rw [if_neg h, mapLookup, if_neg h]
    · by_cases hgt : bytesLt ke k
      · rw [if_neg hlt, if_pos hgt]
        have hkne : ¬ k = ke := by
          intro h; rw [h, bytesLt_irrefl] at hgt; exact Bool.noConfusion hgt
        have hkne' : ¬ ke = k := fun h => hkne h.symm
        by_cases hke' : k' = ke
        · subst hke'
          rw [if_neg hkne', mapLookup, if_pos rfl, mapLookup, if_pos rfl]
        · simp only [mapLookup, if_neg hke', if_neg hkne]
          exact ih hrest
      · have hkeq : k = ke := bytesLt_trichotomy k ke (Bool.of_not_eq_true hlt)
          (Bool.of_not_eq_true hgt)
        subst hkeq
        rw [if_neg hlt, if_neg hgt]
        by_cases h : k' = k
        · subst h
          simp [mapLookup]
        · simp only [mapLookup, if_neg h]

theorem mem_iff_mapLookup (k : List Nat) (v : List Nat) (m : SMap)
    (hm : MapSorted m) : (k, v) ∈ m ↔ mapLookup k m = some v := by
  induction m with
  | nil => simp [mapLookup]
  | cons hd rest ih =>
    obtain ⟨ke, ve⟩ := hd
    rw [MapSorted, List.pairwise_cons] at hm
    obtain ⟨hke, hrest⟩ := hm
    simp only [mapLookup, List.mem_cons]
    by_cases h : k = ke
    · subst h
      rw [if_pos rfl]
      constructor
      · intro hmem
        rcases hmem with h | h
        · rw [(Prod.mk.injEq _ _ _ _).mp h |>.2]
        · exfalso
          have := hke (k, v) h
          rw [bytesLt_irrefl] at this
          exact Bool.noConfusion this
      · intro hv
        left
        rw [Option.some.injEq] at hv
        rw [hv]
    · rw [if_neg h]
      rw [ih hrest]
      constructor
      · intro hmem
        rcases hmem with h' | h'
        · exact absurd ((Prod.mk.injEq _ _ _ _).mp h').1 h
        · exact h'
      · intro h'; right; exact h'

theorem buildExtrinsicMap_ok_sorted (backend : Backend) (changes : OverlayedChanges)
    (l : List (List Nat × List Nat)) (m final : SMap)
    (h : buildExtrinsicMap backend changes m l = Except.ok final)
    (hm : MapSorted m) : MapSorted final := by
  induction l generalizing m with
  | nil =>
    simp only [buildExtrinsicMap, Except.ok.injEq] at h
    rw [← h]; exact hm
  | cons kv rest ih =>
    obtain ⟨key, extrinsics⟩ := kv
    simp only [buildExtrinsicMap] at h
    by_cases hl : finalValueIsSome changes key
    · rw [if_pos hl] at h
      exact ih (mapExtend key extrinsics m) h (mapSorted_mapExtend _ _ _ hm)
    · rw [if_neg hl] at h
      cases hb : backend.exists_storage key with
      | error e => rw [hb] at h; exact Except.noConfusion h
      | ok b =>
        rw [hb] at h
        cases b with
        | true => exact ih (mapExtend key extrinsics m) h (mapSorted_mapExtend _ _ _ hm)
        | false => exact ih m h hm

theorem buildExtrinsicMap_ok_valuesSorted (backend : Backend) (changes : OverlayedChanges)
    (l : List (List Nat × List Nat)) (m final : SMap)
    (h : buildExtrinsicMap backend changes m l = Except.ok final)
    (hm : ∀ e ∈ m, List.Sorted (· < ·) e.2) :
    ∀ e ∈ final, List.Sorted (· < ·) e.2 := by
  induction l generalizing m with
  | nil =>
    simp only [buildExtrinsicMap, Except.ok.injEq] at h
    rw [← h]; exact hm
  | cons kv rest ih =>
    obtain ⟨key, extrinsics⟩ := kv
    simp only [buildExtrinsicMap] at h
    by_cases hl : finalValueIsSome changes key
    · rw [if_pos hl] at h
      exact ih (mapExtend key extrinsics m) h (valuesSorted_mapExtend _ _ _ hm)
    · rw [if_neg hl] at h
      cases hb : backend.exists_storage key with
      | error e => rw [hb] at h; exact Except.noConfusion h
      | ok b =>
        rw [hb] at h
        cases b with
        | true => exact ih (mapExtend key extrinsics m) h (valuesSorted_mapExtend _ _ _ hm)
        | false => exact ih m h hm

theorem buildExtrinsicMap_error (backend : Backend) (changes : OverlayedChanges)
    (l : List (List Nat × List Nat)) (m : SMap) (e : String)
    (h : buildExtrinsicMap backend changes m l = Except.error e) :
    ∃ key exts, (key, exts) ∈ l ∧ finalValueIsSome changes key = false ∧
      backend.exists_storage key = Except.error e := by
  induction l generalizing m with
  | nil => exact Except.noConfusion h
  | cons kv rest ih =>
    obtain ⟨key, extrinsics⟩ := kv
    simp only [buildExtrinsicMap] at h
    by_cases hl : finalValueIsSome changes key
    · rw [if_pos hl] at h
      obtain ⟨k', x', hmem, hlive, herr⟩ := ih (mapExtend key extrinsics m) h
      exact ⟨k', x', List.mem_cons_of_mem _ hmem, hlive, herr⟩
    · rw [if_neg hl] at h
      cases hb : backend.exists_storage key with
      | error e' =>
        rw [hb] at h
        rw [Except.error.injEq] at h
        exact ⟨key, extrinsics, List.mem_cons_self _ _, Bool.of_not_eq_true hl, h ▸ hb⟩
      | ok b =>
        rw [hb] at h
        cases b with
        | true =>
          obtain ⟨k', x', hmem, hlive, herr⟩ := ih (mapExtend key extrinsics m) h
          exact ⟨k', x', List.mem_cons_of_mem _ hmem, hlive, herr⟩
        | false =>
          obtain ⟨k', x', hmem, hlive, herr⟩ := ih m h
          exact ⟨k', x', List.mem_cons_of_mem _ hmem, hlive, herr⟩

theorem buildExtrinsicMap_lookup_mem (backend : Backend) (changes : OverlayedChanges)
    (l : List (List Nat × List Nat)) (m final : SMap)
    (h : buildExtrinsicMap backend changes m l = Except.ok final)
    (hm : MapSorted m) (k : List Nat) (x : Nat) :
    x ∈ (mapLookup k final).getD [] ↔
      x ∈ (mapLookup k m).getD [] ∨
        (retained backend changes k = true ∧ ∃ exts, (k, exts) ∈ l ∧ x ∈ exts) := by
  induction l generalizing m with
  | nil =>
    simp only [buildExtrinsicMap, Except.ok.injEq] at h
    subst h
    simp
  | cons kv rest ih =>
    obtain ⟨key, extrinsics⟩ := kv
    simp only [buildExtrinsicMap] at h
    by_cases hl : finalValueIsSome changes key
    · rw [if_pos hl] at h
      have hret : retained backend changes key = true := by simp [retained, hl]
      rw [ih (mapExtend key extrinsics m) h (mapSorted_mapExtend _ _ _ hm),
        mapLookup_mapExtend key k extrinsics m hm]
      by_cases hk : k = key
      · subst hk
        rw [if_pos rfl]
        simp only [Option.getD_some, mem_setExtend, List.mem_cons, Prod.mk.injEq]
        constructor
        · rintro ((hx | hx) | ⟨hr, exts, hmem, hxe⟩)
          · exact Or.inl hx
          · exact Or.inr ⟨hret, extrinsics, Or.inl ⟨trivial, rfl⟩, hx⟩
          · exact Or.inr ⟨hr, exts, Or.inr hmem, hxe⟩
        · rintro (hx | ⟨hr, exts, (⟨hk1, hk2⟩ | hmem), hxe⟩)
          · exact Or.inl (Or.inl hx)
          · subst hk2; exact Or.inl (Or.inr hxe)
          · exact Or.inr ⟨hr, exts, hmem, hxe⟩
      · rw [if_neg hk]
        simp only [List.mem_cons, Prod.mk.injEq]
        constructor
        · rintro (hx | ⟨hr, exts, hmem, hxe⟩)
          · exact Or.inl hx
          · exact Or.inr ⟨hr, exts, Or.inr hmem, hxe⟩
        · rintro (hx | ⟨hr, exts, (⟨hk1, hk2⟩ | hmem), hxe⟩)
          · exact Or.inl hx
          · exact absurd hk1 hk
          · exact Or.inr ⟨hr, exts, hmem, hxe⟩
    · rw [if_neg hl] at h
      cases hb : backend.exists_storage key with
      | error e => rw [hb] at h; exact Except.noConfusion h
      | ok b =>
        rw [hb] at h
        cases b with
        | true =>
          have hret : retained backend changes key = true := by simp [retained, hb]
          rw [ih (mapExtend key extrinsics m) h (mapSorted_mapExtend _ _ _ hm),
            mapLookup_mapExtend key k extrinsics m hm]
          by_cases hk : k = key
          · subst hk
            rw [if_pos rfl]
            simp only [Option.getD_some, mem_setExtend, List.mem_cons, Prod.mk.injEq]
            constructor
            · rintro ((hx | hx) | ⟨hr, exts, hmem, hxe⟩)
              · exact Or.inl hx
              · exact Or.inr ⟨hret, extrinsics, Or.inl ⟨trivial, rfl⟩, hx⟩
              · exact Or.inr ⟨hr, exts, Or.inr hmem, hxe⟩
            · rintro (hx | ⟨hr, exts, (⟨hk1, hk2⟩ | hmem), hxe⟩)
              · exact Or.inl (Or.inl hx)
              · subst hk2; exact Or.inl (Or.inr hxe)
              · exact Or.inr ⟨hr, exts, hmem, hxe⟩
          · rw [if_neg hk]
            simp only [List.mem_cons, Prod.mk.injEq]
            constructor
            · rintro (hx | ⟨hr, exts, hmem, hxe⟩)
              · exact Or.inl hx
              · exact Or.inr ⟨hr, exts, Or.inr hmem, hxe⟩
            · rintro (hx | ⟨hr, exts, (⟨hk1, hk2⟩ | hmem), hxe⟩)
              · exact Or.inl hx
              · exact absurd hk1 hk
              · exact Or.inr ⟨hr, exts, hmem, hxe⟩
        | false =>
          have hret : retained backend changes key = false := by
            simp [retained, hb, Bool.of_not_eq_true hl]
          rw [ih m h hm]
          constructor
          · rintro (hx | ⟨hr, exts, hmem, hxe⟩)
            · exact Or.inl hx
            · exact Or.inr ⟨hr, exts, List.mem_cons_of_mem _ hmem, hxe⟩
          · rintro (hx | ⟨hr, exts, hmem, hxe⟩)
            · exact Or.inl hx
            · rcases List.mem_cons.mp hmem with heq | hmem'
              · exfalso
                have hk : k = key := congrArg Prod.fst heq
                rw [hk, hret] at hr
                exact Bool.noConfusion hr
              · exact Or.inr ⟨hr, exts, hmem', hxe⟩

theorem buildExtrinsicMap_lookup_isSome (backend : Backend) (changes : OverlayedChanges)
    (l : List (List Nat × List Nat)) (m final : SMap)
    (h : buildExtrinsicMap backend changes m l = Except.ok final)
    (hm : MapSorted m) (k : List Nat) :
    (mapLookup k final).isSome = true ↔
      (mapLookup k m).isSome = true ∨
        (retained backend changes k = true ∧ ∃ exts, (k, exts) ∈ l) := by
  induction l generalizing m with
  | nil =>
    simp only [buildExtrinsicMap, Except.ok.injEq] at h
    subst h
    simp
  | cons kv rest ih =>
    obtain ⟨key, extrinsics⟩ := kv
    simp only [buildExtrinsicMap] at h
    by_cases hl : finalValueIsSome changes key
    · rw [if_pos hl] at h
      have hret : retained backend changes key = true := by simp [retained, hl]
      rw [ih (mapExtend key extrinsics m) h (mapSorted_mapExtend _ _ _ hm),
        mapLookup_mapExtend key k extrinsics m hm]
      by_cases hk : k = key
      · subst hk
        rw [if_pos rfl]
        constructor
        · intro _
          exact Or.inr ⟨hret, extrinsics, List.mem_cons_self _ _⟩
        · intro _
          exact Or.inl (by simp)
      · rw [if_neg hk]
        constructor
        · rintro (hx | ⟨hr, exts, hmem⟩)
          · exact Or.inl hx
          · exact Or.inr ⟨hr, exts, List.mem_cons_of_mem _ hmem⟩
        · rintro (hx | ⟨hr, exts, hmem⟩)
          · exact Or.inl hx
          · rcases List.mem_cons.mp hmem with heq | hmem'
            · exact absurd (congrArg Prod.fst heq) hk
            · exact Or.inr ⟨hr, exts, hmem'⟩
    · rw [if_neg hl] at h
      cases hb : backend.exists_storage key with
      | error e => rw [hb] at h; exact Except.noConfusion h
      | ok b =>
        rw [hb] at h
        cases b with
        | true =>
          have hret : retained backend changes key = true := by simp [retained, hb]
          rw [ih (mapExtend key extrinsics m) h (mapSorted_mapExtend _ _ _ hm),
            mapLookup_mapExtend key k extrinsics m hm]
          by_cases hk : k = key
          · subst hk
            rw [if_pos rfl]
            constructor
            · intro _
              exact Or.inr ⟨hret, extrinsics, List.mem_cons_self _ _⟩
            · intro _
              exact Or.inl (by simp)
          · rw [if_neg hk]
            constructor
            · rintro (hx | ⟨hr, exts, hmem⟩)
              · exact Or.inl hx
              · exact Or.inr ⟨hr, exts, List.mem_cons_of_mem _ hmem⟩
            · rintro (hx | ⟨hr, exts, hmem⟩)
              · exact Or.inl hx
              · rcases List.mem_cons.mp hmem with heq | hmem'
                · exact absurd (congrArg Prod.fst heq) hk
                · exact Or.inr ⟨hr, exts, hmem'⟩
        | false =>
          have hret : retained backend changes key = false := by
            simp [retained, hb, Bool.of_not_eq_true hl]
          rw [ih m h hm]
          constructor
          · rintro (hx | ⟨hr, exts, hmem⟩)
            · exact Or.inl hx
            · exact Or.inr ⟨hr, exts, List.mem_cons_of_mem _ hmem⟩
          · rintro (hx | ⟨hr, exts, hmem⟩)
            · exact Or.inl hx
            · rcases List.mem_cons.mp hmem with heq | hmem'
              · exfalso
                have hk : k = key := congrArg Prod.fst heq
                rw [hk, hret] at hr
                exact Bool.noConfusion hr
              · exact Or.inr ⟨hr, exts, hmem'⟩

theorem setExtend_ne_nil (s xs : List Nat) (h : s ≠ [] ∨ xs ≠ []) :
    setExtend s xs ≠ [] := by
  cases xs with
  | nil =>
    rcases h with h | h
    · exact h
    · exact absurd rfl h
  | cons x xs =>
    have hx : x ∈ setExtend s (x :: xs) :=
      (mem_setExtend x s (x :: xs)).mpr (Or.inr (List.mem_cons_self _ _))
    exact List.ne_nil_of_mem hx

theorem valuesNonempty_mapExtend (k : List Nat) (xs : List Nat) (m : SMap)
    (hxs : xs ≠ []) (hm : ∀ e ∈ m, e.2 ≠ []) :
    ∀ e ∈ mapExtend k xs m, e.2 ≠ [] := by
  induction m with
  | nil =>
    intro e he
    simp only [mapExtend, List.mem_singleton] at he
    rw [he]
    exact setExtend_ne_nil [] xs (Or.inr hxs)
  | cons hd rest ih =>
    obtain ⟨ke, ve⟩ := hd
    intro e he
    simp only [mapExtend] at he
    by_cases hlt : bytesLt k ke
    · rw [if_pos hlt] at he
      rcases List.mem_cons.mp he with h | h
      · rw [h]; exact setExtend_ne_nil [] xs (Or.inr hxs)
      · exact hm e h
    · by_cases hgt : bytesLt ke k
      · rw [if_neg hlt, if_pos hgt] at he
        rcases List.mem_cons.mp he with h | h
        · rw [h]; exact hm (ke, ve) (List.mem_cons_self _ _)
        · exact ih (fun e' he' => hm e' (List.mem_cons_of_mem _ he')) e h
      · rw [if_neg hlt, if_neg hgt] at he
        rcases List.mem_cons.mp he with h | h
        · rw [h]
          exact setExtend_ne_nil ve xs (Or.inr hxs)
        · exact hm e (List.mem_cons_of_mem _ h)

theorem scanStepExt_spec (b : Nat) : ScanStep (scanStepExt b) b := by
  intro acc key
  unfold scanStepExt
  cases hd : decodeInputKey key with
  | none => exact Or.inl rfl
  | some ik =>
    cases ik with
    | ExtrinsicIndex trie_key => exact Or.inr ⟨trie_key.key, rfl⟩
    | DigestIndex trie_key => exact Or.inl rfl

theorem scanStepDig_spec (b : Nat) : ScanStep (scanStepDig b) b := by
  intro acc key
  unfold scanStepDig
  cases hd : decodeInputKey key with
  | none => exact Or.inl rfl
  | some ik =>
    cases ik with
    | ExtrinsicIndex trie_key => exact Or.inl rfl
    | DigestIndex trie_key => exact Or.inr ⟨trie_key.key, rfl⟩

theorem scanFold_sorted (f : SMap → List Nat → SMap) (b : Nat) (hf : ScanStep f b)
    (ks : List (List Nat)) (m : SMap) (hm : MapSorted m) :
    MapSorted (ks.foldl f m) := by
  induction ks generalizing m with
  | nil => exact hm
  | cons k ks ih =>
    rw [List.foldl_cons]
    rcases hf m k with he | ⟨kk, he⟩
    · rw [he]; exact ih m hm
    · rw [he]; exact ih _ (mapSorted_mapExtend _ _ _ hm)

theorem scanFold_valuesSorted (f : SMap → List Nat → SMap) (b : Nat) (hf : ScanStep f b)
    (ks : List (List Nat)) (m : SMap) (hm : ∀ e ∈ m, List.Sorted (· < ·) e.2) :
    ∀ e ∈ ks.foldl f m, List.Sorted (· < ·) e.2 := by
  induction ks generalizing m with
  | nil => exact hm
  | cons k ks ih =>
    rw [List.foldl_cons]
    rcases hf m k with he | ⟨kk, he⟩
    · rw [he]; exact ih m hm
    · rw [he]; exact ih _ (valuesSorted_mapExtend _ _ _ hm)

theorem scanFold_lookup_sub (f : SMap → List Nat → SMap) (b : Nat) (hf : ScanStep f b)
    (ks : List (List Nat)) (m : SMap) (hm : MapSorted m) (k : List Nat) (x : Nat)
    (hx : x ∈ (mapLookup k (ks.foldl f m)).getD []) :
    x ∈ (mapLookup k m).getD [] ∨ x = b := by
  induction ks generalizing m with
  | nil => exact Or.inl hx
  | cons k0 ks ih =>
    rw [List.foldl_cons] at hx
    rcases hf m k0 with he | ⟨kk, he⟩
    · rw [he] at hx; exact ih m hm hx
    · rw [he] at hx
      rcases ih _ (mapSorted_mapExtend _ _ _ hm) hx with hx' | hx'
      · rw [mapLookup_mapExtend kk k [b] m hm] at hx'
        by_cases hk : k = kk
        · subst hk
          rw [if_pos rfl] at hx'
          simp only [Option.getD_some, mem_setExtend, List.mem_singleton] at hx'
          rcases hx' with hx' | hx'
          · exact Or.inl hx'
          · exact Or.inr hx'
        · rw [if_neg hk] at hx'
          exact Or.inl hx'
      · exact Or.inr hx'

theorem scanFold_lookup_isSome (f : SMap → List Nat → SMap) (b : Nat) (hf : ScanStep f b)
    (ks : List (List Nat)) (m : SMap) (hm : MapSorted m) (k : List Nat)
    (hk : (mapLookup k m).isSome = true) :
    (mapLookup k (ks.foldl f m)).isSome = true := by
  induction ks generalizing m with
  | nil => exact hk
  | cons k0 ks ih =>
    rw [List.foldl_cons]
    rcases hf m k0 with he | ⟨kk, he⟩
    · rw [he]; exact ih m hm hk
    · rw [he]
      apply ih _ (mapSorted_mapExtend _ _ _ hm)
      rw [mapLookup_mapExtend kk k [b] m hm]
      by_cases hkk : k = kk
      · rw [if_pos hkk]; simp
      · rw [if_neg hkk]; exact hk

theorem scanFold_ne_nil (f : SMap → List Nat → SMap) (b : Nat) (hf : ScanStep f b)
    (ks : List (List Nat)) (m : SMap) (hm : ∀ e ∈ m, e.2 ≠ []) :
    ∀ e ∈ ks.foldl f m, e.2 ≠ [] := by
  induction ks generalizing m with
  | nil => exact hm
  | cons k0 ks ih =>
    rw [List.foldl_cons]
    rcases hf m k0 with he | ⟨kk, he⟩
    · rw [he]; exact ih m hm
    · rw [he]
      apply ih
      intro e he'
      have hsub := valuesNonempty_mapExtend kk [b] m (by simp) hm e he'
      exact hsub

theorem digestLoop_ok_sorted (storage : Storage) (bs : List Nat) (m final : SMap)
    (h : digestLoop storage m bs = Except.ok final) (hm : MapSorted m) :
    MapSorted final := by
  induction bs generalizing m with
  | nil =>
    simp only [digestLoop, Except.ok.injEq] at h
    rw [← h]; exact hm
  | cons b bs ih =>
    simp only [digestLoop] at h
    cases hr : storage.root b with
    | error e => rw [hr] at h; exact Except.noConfusion h
    | ok ro =>
      rw [hr] at h
      cases ro with
      | none => exact Except.noConfusion h
      | some trie_root =>
        refine ih _ h ?_
        exact scanFold_sorted _ b (scanStepDig_spec b) _ _
          (scanFold_sorted _ b (scanStepExt_spec b) _ _ hm)

theorem digestLoop_ok_valuesSorted (storage : Storage) (bs : List Nat) (m final : SMap)
    (h : digestLoop storage m bs = Except.ok final)
    (hm : ∀ e ∈ m, List.Sorted (· < ·) e.2) :
    ∀ e ∈ final, List.Sorted (· < ·) e.2 := by
  induction bs generalizing m with
  | nil =>
    simp only [digestLoop, Except.ok.injEq] at h
    rw [← h]; exact hm
  | cons b bs ih =>
    simp only [digestLoop] at h
    cases hr : storage.root b with
    | error e => rw [hr] at h; exact Except.noConfusion h
    | ok ro =>
      rw [hr] at h
      cases ro with
      | none => exact Except.noConfusion h
      | some trie_root =>
        refine ih _ h ?_
        exact scanFold_valuesSorted _ b (scanStepDig_spec b) _ _
          (scanFold_valuesSorted _ b (scanStepExt_spec b) _ _ hm)

theorem digestLoop_ok_ne_nil (storage : Storage) (bs : List Nat) (m final : SMap)
    (h : digestLoop storage m bs = Except.ok final) (hm : ∀ e ∈ m, e.2 ≠ []) :
    ∀ e ∈ final, e.2 ≠ [] := by
  induction bs generalizing m with
  | nil =>
    simp only [digestLoop, Except.ok.injEq] at h
    rw [← h]; exact hm
  | cons b bs ih =>
    simp only [digestLoop] at h
    cases hr : storage.root b with
    | error e => rw [hr] at h; exact Except.noConfusion h
    | ok ro =>
      rw [hr] at h
      cases ro with
      | none => exact Except.noConfusion h
      | some trie_root =>
        refine ih _ h ?_
        exact scanFold_ne_nil _ b (scanStepDig_spec b) _ _
          (scanFold_ne_nil _ b (scanStepExt_spec b) _ _ hm)

theorem digestLoop_lookup_sub (storage : Storage) (bs : List Nat) (m final : SMap)
    (h : digestLoop storage m bs = Except.ok final) (hm : MapSorted m)
    (k : List Nat) (x : Nat) (hx : x ∈ (mapLookup k final).getD []) :
    x ∈ (mapLookup k m).getD [] ∨ x ∈ bs := by
  induction bs generalizing m with
  | nil =>
    simp only [digestLoop, Except.ok.injEq] at h
    rw [← h] at hx
    exact Or.inl hx
  | cons b bs ih =>
    simp only [digestLoop] at h
    cases hr : storage.root b with
    | error e => rw [hr] at h; exact Except.noConfusion h
    | ok ro =>
      rw [hr] at h
      cases ro with
      | none => exact Except.noConfusion h
      | some trie_root =>
        have hm1 : MapSorted ((storage.keysWithPfx trie_root
            (ExtrinsicIndex.keyNeutralPfx b)).foldl (scanStepExt b) m) :=
          scanFold_sorted _ b (scanStepExt_spec b) _ _ hm
        rcases ih _ h (scanFold_sorted _ b (scanStepDig_spec b) _ _ hm1) with hx' | hx'
        · rcases scanFold_lookup_sub _ b (scanStepDig_spec b) _ _ hm1 k x hx' with hx'' | hx''
          · rcases scanFold_lookup_sub _ b (scanStepExt_spec b) _ _ hm k x hx'' with h3 | h3
            · exact Or.inl h3
            · exact Or.inr (h3 ▸ List.mem_cons_self _ _)
          · exact Or.inr (hx'' ▸ List.mem_cons_self _ _)
        · exact Or.inr (List.mem_cons_of_mem _ hx')

theorem digestLoop_error (storage : Storage) (bs : List Nat) (m : SMap) (e : String)
    (h : digestLoop storage m bs = Except.error e) :
    ∃ b ∈ bs, storage.root b = Except.error e ∨
      (storage.root b = Except.ok none ∧
        e = "No changes trie root for block " ++ toString b) := by
  induction bs generalizing m with
  | nil => exact Except.noConfusion h
  | cons b bs ih =>
    simp only [digestLoop] at h
    cases hr : storage.root b with
    | error e' =>
      rw [hr] at h
      rw [Except.error.injEq] at h
      exact ⟨b, List.mem_cons_self _ _, Or.inl (h ▸ hr)⟩
    | ok ro =>
      rw [hr] at h
      cases ro with
      | none =>
        rw [Except.error.injEq] at h
        exact ⟨b, List.mem_cons_self _ _, Or.inr ⟨hr, h.symm⟩⟩
      | some trie_root =>
        obtain ⟨b', hb', hcase⟩ := ih _ h
        exact ⟨b', List.mem_cons_of_mem _ hb', hcase⟩

theorem digestLoop_ok_of_roots (storage : Storage) (bs : List Nat) (m : SMap)
    (h : ∀ b ∈ bs, ∃ r, storage.root b = Except.ok (some r)) :
    ∃ final, digestLoop storage m bs = Except.ok final := by
  induction bs generalizing m with
  | nil => exact ⟨m, rfl⟩
  | cons b bs ih =>
    obtain ⟨r, hr⟩ := h b (List.mem_cons_self _ _)
    simp only [digestLoop, hr]
    exact ih _ fun b' hb' => h b' (List.mem_cons_of_mem _ hb')

theorem digestLoop_append (storage : Storage) (bs1 bs2 : List Nat) (m m' : SMap)
    (h : digestLoop storage m bs1 = Except.ok m') :
    digestLoop storage m (bs1 ++ bs2) = digestLoop storage m' bs2 := by
  induction bs1 generalizing m with
  | nil =>
    simp only [digestLoop, Except.ok.injEq] at h
    rw [List.nil_append, h]
  | cons b bs1 ih =>
    simp only [digestLoop, List.cons_append] at h ⊢
    revert h
    cases storage.root b with
    | error e =>
      intro h
      exact Except.noConfusion h
    | ok ro =>
      cases ro with
      | none =>
        intro h
        exact Except.noConfusion h
      | some trie_root =>
        intro h
        exact ih _ h

theorem prepare_extrinsics_input_ok (backend : Backend) (changes : OverlayedChanges)
    (ec : ExtrinsicChanges) (l : List InputPair)
    (h : prepare_extrinsics_input backend changes ec = Except.ok l) :
    ∃ m, buildExtrinsicMap backend changes [] (ec.prospective ++ ec.committed) = Except.ok m ∧
      l = m.map fun kv => InputPair.ExtrinsicIndex ⟨ec.block, kv.1⟩ kv.2 := by
  unfold prepare_extrinsics_input at h
  cases hb : buildExtrinsicMap backend changes [] (ec.prospective ++ ec.committed) with
  | error e =>
    rw [hb] at h
    exact Except.noConfusion h
  | ok m =>
    rw [hb] at h
    rw [Except.ok.injEq] at h
    exact ⟨m, rfl, h.symm⟩

theorem prepare_extrinsics_input_error (backend : Backend) (changes : OverlayedChanges)
    (ec : ExtrinsicChanges) (e : String)
    (h : prepare_extrinsics_input backend changes ec = Except.error e) :
    buildExtrinsicMap backend changes [] (ec.prospective ++ ec.committed) = Except.error e := by
  unfold prepare_extrinsics_input at h
  cases hb : buildExtrinsicMap backend changes [] (ec.prospective ++ ec.committed) with
  | error e' =>
    rw [hb] at h
    rw [Except.error.injEq] at h
    rw [h]
  | ok m =>
    rw [hb] at h
    exact Except.noConfusion h

theorem prepare_digest_input_ok (dbi : Configuration → Nat → List Nat) (block : Nat)
    (config : Configuration) (storage : Storage) (l : List InputPair)
    (h : prepare_digest_input dbi block config storage = Except.ok l) :
    ∃ m, digestLoop storage [] (dbi config block) = Except.ok m ∧
      l = m.map fun kv => InputPair.DigestIndex ⟨block, kv.1⟩ kv.2 := by
  unfold prepare_digest_input at h
  cases hb : digestLoop storage [] (dbi config block) with
  | error e =>
    rw [hb] at h
    exact Except.noConfusion h
  | ok m =>
    rw [hb] at h
    rw [Except.ok.injEq] at h
    exact ⟨m, rfl, h.symm⟩

theorem prepare_digest_input_error (dbi : Configuration → Nat → List Nat) (block : Nat)
    (config : Configuration) (storage : Storage) (e : String)
    (h : prepare_digest_input dbi block config storage = Except.error e) :
    digestLoop storage [] (dbi config block) = Except.error e := by
  unfold prepare_digest_input at h
  cases hb : digestLoop storage [] (dbi config block) with
  | error e' =>
    rw [hb] at h
    rw [Except.error.injEq] at h
    rw [h]
  | ok m =>
    rw [hb] at h
    exact Except.noConfusion h

theorem prepare_input_eq (dbi : Configuration → Nat → List Nat) (backend : Backend)
    (storage : Storage) (changes : OverlayedChanges) (ec : ExtrinsicChanges)
    (hec : changes.extrinsic_changes = some ec) :
    prepare_input dbi backend (some storage) changes =
      match prepare_extrinsics_input backend changes ec with
      | Except.error e => Except.error e
      | Except.ok ext_pairs =>
        match prepare_digest_input dbi ec.block ec.changes_trie_config storage with
        | Except.error e => Except.error e
        | Except.ok dig_pairs => Except.ok (some (ext_pairs ++ dig_pairs)) := by
  simp only [prepare_input, hec]

theorem prepare_input_ok_some (dbi : Configuration → Nat → List Nat) (backend : Backend)
    (st : Option Storage) (changes : OverlayedChanges) (l : List InputPair)
    (h : prepare_input dbi backend st changes = Except.ok (some l)) :
    ∃ storage ec l1 l2, st = some storage ∧ changes.extrinsic_changes = some ec ∧
      prepare_extrinsics_input backend changes ec = Except.ok l1 ∧
      prepare_digest_input dbi ec.block ec.changes_trie_config storage = Except.ok l2 ∧
      l = l1 ++ l2 := by
  cases st with
  | none =>
    simp only [prepare_input, Except.ok.injEq] at h
    exact Option.noConfusion h
  | some storage =>
    cases hec : changes.extrinsic_changes with
    | none =>
      simp only [prepare_input, hec, Except.ok.injEq] at h
      exact Option.noConfusion h
    | some ec =>
      rw [prepare_input_eq dbi backend storage changes ec hec] at h
      revert h
      cases he : prepare_extrinsics_input backend changes ec with
      | error e =>
        intro h
        exact Except.noConfusion h
      | ok l1 =>
        cases hd : prepare_digest_input dbi ec.block ec.changes_trie_config storage with
        | error e =>
          intro h
          exact Except.noConfusion h
        | ok l2 =>
          intro h
          simp only [Except.ok.injEq, Option.some.injEq] at h
          exact ⟨storage, ec, l1, l2, rfl, rfl, he, hd, h.symm⟩

theorem extPair_mem_map (b : Nat) (k : List Nat) (v : List Nat) (m : SMap) :
    InputPair.ExtrinsicIndex ⟨b, k⟩ v ∈
      m.map (fun kv => InputPair.ExtrinsicIndex ⟨b, kv.1⟩ kv.2) ↔ (k, v) ∈ m := by
  rw [List.mem_map]
  constructor
  · rintro ⟨kv, hkv, heq⟩
    rw [InputPair.ExtrinsicIndex.injEq] at heq
    obtain ⟨h1, h2⟩ := heq
    rw [ExtrinsicIndex.mk.injEq] at h1
    have hkveq : kv = (k, v) := by
      rw [Prod.ext_iff]
      exact ⟨h1.2, h2⟩
    rw [← hkveq]
    exact hkv
  · intro hkv
    exact ⟨(k, v), hkv, rfl⟩

theorem digPair_mem_map (b : Nat) (k : List Nat) (v : List Nat) (m : SMap) :
    InputPair.DigestIndex ⟨b, k⟩ v ∈
      m.map (fun kv => InputPair.DigestIndex ⟨b, kv.1⟩ kv.2) ↔ (k, v) ∈ m := by
  rw [List.mem_map]
  constructor
  · rintro ⟨kv, hkv, heq⟩
    rw [InputPair.DigestIndex.injEq] at heq
    obtain ⟨h1, h2⟩ := heq
    rw [DigestIndex.mk.injEq] at h1
    have hkveq : kv = (k, v) := by
      rw [Prod.ext_iff]
      exact ⟨h1.2, h2⟩
    rw [← hkveq]
    exact hkv
  · intro hkv
    exact ⟨(k, v), hkv, rfl⟩

theorem retained_iff (backend : Backend) (changes : OverlayedChanges) (key : List Nat) :
    retained backend changes key = true ↔
      (finalValueIsSome changes key = true ∨
        backend.exists_storage key = Except.ok true) := by
  unfold retained
  rw [Bool.or_eq_true]
  constructor
  · rintro (h | h)
    · exact Or.inl h
    · right
      revert h
      cases hb : backend.exists_storage key with
      | error e =>
        intro h
        exact Bool.noConfusion h
      | ok b =>
        cases b with
        | false =>
          intro h
          exact Bool.noConfusion h
        | true =>
          intro _
          rfl
  · rintro (h | h)
    · exact Or.inl h
    · right
      rw [h]

theorem extPair_exists_iff_lookup (block : Nat) (key : List Nat) (m : SMap)
    (hm : MapSorted m) :
    (∃ v, InputPair.ExtrinsicIndex ⟨block, key⟩ v ∈
      m.map fun kv => InputPair.ExtrinsicIndex ⟨block, kv.1⟩ kv.2) ↔
    (mapLookup key m).isSome = true := by
  constructor
  · rintro ⟨v, hv⟩
    rw [extPair_mem_map] at hv
    rw [(mem_iff_mapLookup key v m hm).mp hv]
    rfl
  · intro h
    obtain ⟨v, hv⟩ := Option.isSome_iff_exists.mp h
    exact ⟨v, (extPair_mem_map block key v m).mpr ((mem_iff_mapLookup key v m hm).mpr hv)⟩

/-- C1: in `prepare_extrinsics_input`, a key from the prospective or committed
change sets yields an `ExtrinsicIndex` entry unconditionally when its final
overlay value is `Some`; when the final value is absent it yields an entry
iff the backend reports the key existed at block start, and yields none
otherwise. -/
theorem extrinsics_retention_filter (backend : Backend) (changes : OverlayedChanges)
    (ec : ExtrinsicChanges) (l : List InputPair)
    (h : prepare_extrinsics_input backend changes ec = Except.ok l)
    (key : List Nat) (hk : key ∈ (ec.prospective ++ ec.committed).map Prod.fst) :
    (finalValueIsSome changes key = true →
      ∃ v, InputPair.ExtrinsicIndex ⟨ec.block, key⟩ v ∈ l) ∧
    (finalValueIsSome changes key = false →
      ((∃ v, InputPair.ExtrinsicIndex ⟨ec.block, key⟩ v ∈ l) ↔
        backend.exists_storage key = Except.ok true)) := by
  obtain ⟨m, hb, hl⟩ := prepare_extrinsics_input_ok backend changes ec l h
  have hms : MapSorted m :=
    buildExtrinsicMap_ok_sorted backend changes _ [] m hb List.Pairwise.nil
  subst hl
  have hiff := extPair_exists_iff_lookup ec.block key m hms
  have hchar := buildExtrinsicMap_lookup_isSome backend changes _ [] m hb
    List.Pairwise.nil key
  simp only [mapLookup, Option.isSome_none, Bool.false_eq_true, false_or] at hchar
  have hocc : ∃ exts, (key, exts) ∈ ec.prospective ++ ec.committed := by
    obtain ⟨kv, hkv, hfst⟩ := List.mem_map.mp hk
    exact ⟨kv.2, by rw [← hfst, Prod.mk.eta]; exact hkv⟩
  constructor
  · intro hlive
    rw [hiff, hchar]
    exact ⟨(retained_iff backend changes key).mpr (Or.inl hlive), hocc⟩
  · intro hnotlive
    rw [hiff, hchar]
    constructor
    · rintro ⟨hret, _⟩
      rcases (retained_iff backend changes key).mp hret with h' | h'
      · rw [hnotlive] at h'
        exact Bool.noConfusion h'
      · exact h'
    · intro hex
      exact ⟨(retained_iff backend changes key).mpr (Or.inr hex), hocc⟩

/-- Witness for C1 at the fixture: key `100` of block 5 is live in the overlay
and receives an entry. -/
theorem extrinsics_retention_filter_witness :
    (finalValueIsSome (changesT 5) [100] = true →
      ∃ v, InputPair.ExtrinsicIndex ⟨5, [100]⟩ v ∈
        [InputPair.ExtrinsicIndex ⟨5, [100]⟩ [0, 2, 3],
         InputPair.ExtrinsicIndex ⟨5, [101]⟩ [1],
         InputPair.ExtrinsicIndex ⟨5, [103]⟩ [0, 1]]) ∧
    (finalValueIsSome (changesT 5) [100] = false →
      ((∃ v, InputPair.ExtrinsicIndex ⟨5, [100]⟩ v ∈
        [InputPair.ExtrinsicIndex ⟨5, [100]⟩ [0, 2, 3],
         InputPair.ExtrinsicIndex ⟨5, [101]⟩ [1],
         InputPair.ExtrinsicIndex ⟨5, [103]⟩ [0, 1]]) ↔
        backendT.exists_storage [100] = Except.ok true)) :=
  extrinsics_retention_filter backendT (changesT 5) (ecT 5)
    [InputPair.ExtrinsicIndex ⟨5, [100]⟩ [0, 2, 3],
     InputPair.ExtrinsicIndex ⟨5, [101]⟩ [1],
     InputPair.ExtrinsicIndex ⟨5, [103]⟩ [0, 1]]
    rfl [100] (by decide)

/-- C2: every `ExtrinsicIndex` entry produced by `prepare_extrinsics_input`
carries the ascending, duplicate-free union of its key's prospective and
committed ordinal sets. -/
theorem extrinsics_value_is_union (backend : Backend) (changes : OverlayedChanges)
    (ec : ExtrinsicChanges) (l : List InputPair)
    (h : prepare_extrinsics_input backend changes ec = Except.ok l)
    (k v : List Nat) (hp : InputPair.ExtrinsicIndex ⟨ec.block, k⟩ v ∈ l) :
    List.Sorted (· < ·) v ∧ v.Nodup ∧
      ∀ x, (x ∈ v ↔ ∃ exts, (k, exts) ∈ ec.prospective ++ ec.committed ∧ x ∈ exts) := by
  obtain ⟨m, hb, hl⟩ := prepare_extrinsics_input_ok backend changes ec l h
  have hms : MapSorted m :=
    buildExtrinsicMap_ok_sorted backend changes _ [] m hb List.Pairwise.nil
  subst hl
  have hv : (k, v) ∈ m := (extPair_mem_map ec.block k v m).mp hp
  have hvs : List.Sorted (· < ·) v :=
    buildExtrinsicMap_ok_valuesSorted backend changes _ [] m hb
      (by intro e he; exact absurd he (List.not_mem_nil e)) (k, v) hv
  refine ⟨hvs, hvs.nodup, ?_⟩
  intro x
  have hlook : mapLookup k m = some v := (mem_iff_mapLookup k v m hms).mp hv
  have hchar := buildExtrinsicMap_lookup_mem backend changes _ [] m hb
    List.Pairwise.nil k x
  rw [hlook] at hchar
  simp only [Option.getD_some, mapLookup, Option.getD_none, List.not_mem_nil,
    false_or] at hchar
  have hret : retained backend changes k = true := by
    have hcharS := buildExtrinsicMap_lookup_isSome backend changes _ [] m hb
      List.Pairwise.nil k
    rw [hlook] at hcharS
    simp only [Option.isSome_some, mapLookup, Option.isSome_none,
      Bool.false_eq_true, false_or, true_iff] at hcharS
    exact hcharS.1
  rw [hchar]
  constructor
  · rintro ⟨_, exts, hmem, hxe⟩
    exact ⟨exts, hmem, hxe⟩
  · rintro ⟨exts, hmem, hxe⟩
    exact ⟨hret, exts, hmem, hxe⟩

/-- Witness for C2 at the fixture: the block-5 entry for key `100` carries
`[0, 2, 3]`, the sorted union of prospective `[0, 2]` and committed `[3]`. -/
theorem extrinsics_value_is_union_witness :
    List.Sorted (· < ·) [0, 2, 3] ∧ ([0, 2, 3] : List Nat).Nodup ∧
      ∀ x, (x ∈ ([0, 2, 3] : List Nat) ↔
        ∃ exts, ([100], exts) ∈ (ecT 5).prospective ++ (ecT 5).committed ∧ x ∈ exts) :=
  extrinsics_value_is_union backendT (changesT 5) (ecT 5)
    [InputPair.ExtrinsicIndex ⟨5, [100]⟩ [0, 2, 3],
     InputPair.ExtrinsicIndex ⟨5, [101]⟩ [1],
     InputPair.ExtrinsicIndex ⟨5, [103]⟩ [0, 1]]
    rfl [100] [0, 2, 3] (by decide)

/-- C3: a present `prepare_input` result splits into `ExtrinsicIndex` entries
followed by `DigestIndex` entries, each segment sorted by ascending raw key
bytes, and every entry's value list ascending without duplicates. -/
theorem prepare_input_output_shape (dbi : Configuration → Nat → List Nat)
    (backend : Backend) (st : Option Storage) (changes : OverlayedChanges)
    (l : List InputPair)
    (h : prepare_input dbi backend st changes = Except.ok (some l)) :
    ∃ l1 l2, l = l1 ++ l2 ∧
      (∀ p ∈ l1, p.isExt = true) ∧ (∀ p ∈ l2, p.isExt = false) ∧
      List.Pairwise (fun a b => bytesLt a.pairKey b.pairKey = true) l1 ∧
      List.Pairwise (fun a b => bytesLt a.pairKey b.pairKey = true) l2 ∧
      ∀ p ∈ l, List.Sorted (· < ·) p.pairVal ∧ p.pairVal.Nodup := by
  obtain ⟨storage, ec, l1, l2, hst, hec, he, hd, happ⟩ :=
    prepare_input_ok_some dbi backend st changes l h
  obtain ⟨m1, hb1, hl1⟩ := prepare_extrinsics_input_ok backend changes ec l1 he
  obtain ⟨m2, hb2, hl2⟩ := prepare_digest_input_ok dbi ec.block
    ec.changes_trie_config storage l2 hd
  have hms1 : MapSorted m1 :=
    buildExtrinsicMap_ok_sorted backend changes _ [] m1 hb1 List.Pairwise.nil
  have hms2 : MapSorted m2 :=
    digestLoop_ok_sorted storage _ [] m2 hb2 List.Pairwise.nil
  have hvs1 := buildExtrinsicMap_ok_valuesSorted backend changes _ [] m1 hb1
    (by intro e he'; exact absurd he' (List.not_mem_nil e))
  have hvs2 := digestLoop_ok_valuesSorted storage _ [] m2 hb2
    (by intro e he'; exact absurd he' (List.not_mem_nil e))
  subst happ hl1 hl2
  refine ⟨_, _, rfl, ?_, ?_, ?_, ?_, ?_⟩
  · intro p hp
    obtain ⟨kv, _, hkv⟩ := List.mem_map.mp hp
    rw [← hkv]
    rfl
  · intro p hp
    obtain ⟨kv, _, hkv⟩ := List.mem_map.mp hp
    rw [← hkv]
    rfl
  · exact (List.pairwise_map).mpr (hms1.imp fun h' => h')
  · exact (List.pairwise_map).mpr (hms2.imp fun h' => h')
  · intro p hp
    rcases List.mem_append.mp hp with hp' | hp'
    · obtain ⟨kv, hkvm, hkv⟩ := List.mem_map.mp hp'
      have hs := hvs1 kv hkvm
      rw [← hkv]
      exact ⟨hs, hs.nodup⟩
    · obtain ⟨kv, hkvm, hkv⟩ := List.mem_map.mp hp'
      have hs := hvs2 kv hkvm
      rw [← hkv]
      exact ⟨hs, hs.nodup⟩

/-- Witness for C3 at the fixture's level-1 digest block 4. -/
theorem prepare_input_output_shape_witness :
    ∃ l1 l2,
      ([InputPair.ExtrinsicIndex ⟨4, [100]⟩ [0, 2, 3],
        InputPair.ExtrinsicIndex ⟨4, [101]⟩ [1],
        InputPair.ExtrinsicIndex ⟨4, [103]⟩ [0, 1],
        InputPair.DigestIndex ⟨4, [100]⟩ [1, 3],
        InputPair.DigestIndex ⟨4, [101]⟩ [1],
        InputPair.DigestIndex ⟨4, [102]⟩ [2],
        InputPair.DigestIndex ⟨4, [105]⟩ [1, 3]] : List InputPair) = l1 ++ l2 ∧
      (∀ p ∈ l1, p.isExt = true) ∧ (∀ p ∈ l2, p.isExt = false) ∧
      List.Pairwise (fun a b => bytesLt a.pairKey b.pairKey = true) l1 ∧
      List.Pairwise (fun a b => bytesLt a.pairKey b.pairKey = true) l2 ∧
      ∀ p ∈ ([InputPair.ExtrinsicIndex ⟨4, [100]⟩ [0, 2, 3],
        InputPair.ExtrinsicIndex ⟨4, [101]⟩ [1],
        InputPair.ExtrinsicIndex ⟨4, [103]⟩ [0, 1],
        InputPair.DigestIndex ⟨4, [100]⟩ [1, 3],
        InputPair.DigestIndex ⟨4, [101]⟩ [1],
        InputPair.DigestIndex ⟨4, [102]⟩ [2],
        InputPair.DigestIndex ⟨4, [105]⟩ [1, 3]] : List InputPair),
        List.Sorted (· < ·) p.pairVal ∧ p.pairVal.Nodup :=
  prepare_input_output_shape dbiT backendT (some storageT) (changesT 4) _ rfl

/-- Helper: `digestLoop` reduced at an error for one propagation step. -/
theorem prepare_digest_input_error_of_loop (dbi : Configuration → Nat → List Nat)
    (block : Nat) (config : Configuration) (storage : Storage) (e : String)
    (h : digestLoop storage [] (dbi config block) = Except.error e) :
    prepare_digest_input dbi block config storage = Except.error e := by
  unfold prepare_digest_input
  rw [h]

/-- A digest-stage error propagates unchanged through `prepare_input`. -/
theorem prepare_input_digest_error (dbi : Configuration → Nat → List Nat)
    (backend : Backend) (storage : Storage) (changes : OverlayedChanges)
    (ec : ExtrinsicChanges) (l1 : List InputPair) (e : String)
    (hec : changes.extrinsic_changes = some ec)
    (hl1 : prepare_extrinsics_input backend changes ec = Except.ok l1)
    (hd : prepare_digest_input dbi ec.block ec.changes_trie_config storage =
      Except.error e) :
    prepare_input dbi backend (some storage) changes = Except.error e := by
  rw [prepare_input_eq dbi backend storage changes ec hec, hl1]
  show (match prepare_digest_input dbi ec.block ec.changes_trie_config storage with
    | Except.error e => Except.error e
    | Except.ok dig_pairs => Except.ok (some (l1 ++ dig_pairs))) = Except.error e
  rw [hd]

/-- C4: if the digest build iterator yields a block `b` whose trie root is
missing (after blocks whose roots resolve), `prepare_digest_input` — and with
it `prepare_input` — fails with `"No changes trie root for block b"`; a root
storage error at `b` likewise aborts the preparation with that error. -/
theorem digest_missing_root_error (dbi : Configuration → Nat → List Nat)
    (backend : Backend) (storage : Storage) (changes : OverlayedChanges)
    (ec : ExtrinsicChanges) (l1 : List InputPair) (b : Nat) (bs1 bs2 : List Nat)
    (hiter : dbi ec.changes_trie_config ec.block = bs1 ++ b :: bs2)
    (hroots : ∀ b' ∈ bs1, ∃ r, storage.root b' = Except.ok (some r))
    (hec : changes.extrinsic_changes = some ec)
    (hl1 : prepare_extrinsics_input backend changes ec = Except.ok l1) :
    (storage.root b = Except.ok none →
      prepare_digest_input dbi ec.block ec.changes_trie_config storage =
        Except.error ("No changes trie root for block " ++ toString b) ∧
      prepare_input dbi backend (some storage) changes =
        Except.error ("No changes trie root for block " ++ toString b)) ∧
    (∀ e, storage.root b = Except.error e →
      prepare_digest_input dbi ec.block ec.changes_trie_config storage =
        Except.error e ∧
      prepare_input dbi backend (some storage) changes = Except.error e) := by
  obtain ⟨m', hm'⟩ := digestLoop_ok_of_roots storage bs1 [] hroots
  have happ := digestLoop_append storage bs1 (b :: bs2) [] m' hm'
  constructor
  · intro hnone
    have hloop : digestLoop storage [] (bs1 ++ b :: bs2) =
        Except.error ("No changes trie root for block " ++ toString b) := by
      rw [happ]
      simp only [digestLoop, hnone]
    have hpd := prepare_digest_input_error_of_loop dbi ec.block
      ec.changes_trie_config storage _ (by rw [hiter]; exact hloop)
    exact ⟨hpd, prepare_input_digest_error dbi backend storage changes ec l1 _
      hec hl1 hpd⟩
  · intro e herr
    have hloop : digestLoop storage [] (bs1 ++ b :: bs2) = Except.error e := by
      rw [happ]
      simp only [digestLoop, herr]
    have hpd := prepare_digest_input_error_of_loop dbi ec.block
      ec.changes_trie_config storage _ (by rw [hiter]; exact hloop)
    exact ⟨hpd, prepare_input_digest_error dbi backend storage changes ec l1 _
      hec hl1 hpd⟩

/-- Witness for C4: with every root missing and the iterator yielding block 1
for block 4's digest, preparation fails with the interpolated message. -/
theorem digest_missing_root_error_witness :
    (storageNoRoots.root 1 = Except.ok none →
      prepare_digest_input dbiT (ecT 4).block (ecT 4).changes_trie_config
        storageNoRoots = Except.error ("No changes trie root for block " ++ toString 1) ∧
      prepare_input dbiT backendT (some storageNoRoots) (changesT 4) =
        Except.error ("No changes trie root for block " ++ toString 1)) ∧
    (∀ e, storageNoRoots.root 1 = Except.error e →
      prepare_digest_input dbiT (ecT 4).block (ecT 4).changes_trie_config
        storageNoRoots = Except.error e ∧
      prepare_input dbiT backendT (some storageNoRoots) (changesT 4) =
        Except.error e) :=
  digest_missing_root_error dbiT backendT storageNoRoots (changesT 4) (ecT 4)
    [InputPair.ExtrinsicIndex ⟨4, [100]⟩ [0, 2, 3],
     InputPair.ExtrinsicIndex ⟨4, [101]⟩ [1],
     InputPair.ExtrinsicIndex ⟨4, [103]⟩ [0, 1]]
    1 [] [2, 3] rfl (by intro b' hb'; exact absurd hb' (List.not_mem_nil b'))
    rfl rfl

/-- C5: `prepare_input` answers `Ok(None)` — for every backend, iterator and
storage alike, hence without consulting them — when no historical storage
handle is supplied, and likewise when the overlay carries no extrinsic-change
record. -/
theorem prepare_input_no_result_cases :
    (∀ (dbi : Configuration → Nat → List Nat) (backend : Backend)
      (changes : OverlayedChanges),
      prepare_input dbi backend none changes = Except.ok none) ∧
    (∀ (dbi : Configuration → Nat → List Nat) (backend : Backend)
      (st : Option Storage) (changes : OverlayedChanges),
      changes.extrinsic_changes = none →
      prepare_input dbi backend st changes = Except.ok none) := by
  constructor
  · intro dbi backend changes
    rfl
  · intro dbi backend st changes hec
    cases st with
    | none => rfl
    | some storage =>
      simp only [prepare_input, hec]

/-- Witness for C5 at the fixture. -/
theorem prepare_input_no_result_cases_witness :
    prepare_input dbiT backendT none (changesT 5) = Except.ok none ∧
    prepare_input dbiT backendT (some storageT) noneChangesT = Except.ok none :=
  ⟨prepare_input_no_result_cases.1 dbiT backendT (changesT 5),
   prepare_input_no_result_cases.2 dbiT backendT (some storageT) noneChangesT rfl⟩

/-- C6 counterexample: when a change-set entry carries an empty ordinal set,
`entry(key).or_default().extend(..)` still creates the map entry, and the
successful result contains an `ExtrinsicIndex` pair whose value list is
empty — contradicting the claim for arbitrary overlay contents. -/
theorem empty_ordinal_entry_counterexample :
    prepare_input (fun _ _ => []) backendT (some storageNoRoots) changesC6 =
      Except.ok (some [InputPair.ExtrinsicIndex ⟨1, [100]⟩ []]) ∧
    (InputPair.ExtrinsicIndex ⟨1, [100]⟩ ([] : List Nat)).pairVal = [] :=
  ⟨rfl, rfl⟩

theorem buildExtrinsicMap_ok_ne_nil (backend : Backend) (changes : OverlayedChanges)
    (l : List (List Nat × List Nat)) (m final : SMap)
    (h : buildExtrinsicMap backend changes m l = Except.ok final)
    (hl : ∀ kv ∈ l, kv.2 ≠ ([] : List Nat)) (hm : ∀ e ∈ m, e.2 ≠ []) :
    ∀ e ∈ final, e.2 ≠ [] := by
  induction l generalizing m with
  | nil =>
    simp only [buildExtrinsicMap, Except.ok.injEq] at h
    rw [← h]
    exact hm
  | cons kv rest ih =>
    obtain ⟨key, extrinsics⟩ := kv
    have hxs : extrinsics ≠ [] := hl (key, extrinsics) (List.mem_cons_self _ _)
    have hl' : ∀ kv ∈ rest, kv.2 ≠ ([] : List Nat) :=
      fun kv hkv => hl kv (List.mem_cons_of_mem _ hkv)
    simp only [buildExtrinsicMap] at h
    by_cases hlive : finalValueIsSome changes key
    · rw [if_pos hlive] at h
      exact ih _ h hl' (valuesNonempty_mapExtend key extrinsics m hxs hm)
    · rw [if_neg hlive] at h
      cases hb : backend.exists_storage key with
      | error e => rw [hb] at h; exact Except.noConfusion h
      | ok b =>
        rw [hb] at h
        cases b with
        | true => exact ih _ h hl' (valuesNonempty_mapExtend key extrinsics m hxs hm)
        | false => exact ih m h hl' hm

/-- C6 (amended): in a successful `prepare_input` result, every `DigestIndex`
entry carries a non-empty block set unconditionally; and provided every
prospective/committed change-set entry carries a non-empty ordinal set, every
entry of either kind has a non-empty value list. -/
theorem prepare_input_values_nonempty (dbi : Configuration → Nat → List Nat)
    (backend : Backend) (st : Option Storage) (changes : OverlayedChanges)
    (l : List InputPair)
    (h : prepare_input dbi backend st changes = Except.ok (some l)) :
    (∀ p ∈ l, p.isExt = false → p.pairVal ≠ []) ∧
    ((∀ ec, changes.extrinsic_changes = some ec →
        ∀ kv ∈ ec.prospective ++ ec.committed, kv.2 ≠ ([] : List Nat)) →
      ∀ p ∈ l, p.pairVal ≠ []) := by
  obtain ⟨storage, ec, l1, l2, hst, hec, he, hd, happ⟩ :=
    prepare_input_ok_some dbi backend st changes l h
  obtain ⟨m1, hb1, hl1⟩ := prepare_extrinsics_input_ok backend changes ec l1 he
  obtain ⟨m2, hb2, hl2⟩ := prepare_digest_input_ok dbi ec.block
    ec.changes_trie_config storage l2 hd
  have h2 := digestLoop_ok_ne_nil storage _ [] m2 hb2
    (by intro e he'; exact absurd he' (List.not_mem_nil e))
  subst happ hl1 hl2
  constructor
  · intro p hp hext
    rcases List.mem_append.mp hp with hp' | hp'
    · obtain ⟨kv, hkvm, hkv⟩ := List.mem_map.mp hp'
      rw [← hkv] at hext
      exact Bool.noConfusion hext
    · obtain ⟨kv, hkvm, hkv⟩ := List.mem_map.mp hp'
      rw [← hkv]
      exact h2 kv hkvm
  · intro hne p hp
    have h1 := buildExtrinsicMap_ok_ne_nil backend changes _ [] m1 hb1 (hne ec hec)
      (by intro e he'; exact absurd he' (List.not_mem_nil e))
    rcases List.mem_append.mp hp with hp' | hp'
    · obtain ⟨kv, hkvm, hkv⟩ := List.mem_map.mp hp'
      rw [← hkv]
      exact h1 kv hkvm
    · obtain ⟨kv, hkvm, hkv⟩ := List.mem_map.mp hp'
      rw [← hkv]
      exact h2 kv hkvm

/-- Witness for the amended C6 at the fixture's block 4: the `DigestIndex`
entries are non-empty unconditionally, and under the non-empty-ordinal-set
proviso every entry is. -/
theorem prepare_input_values_nonempty_witness :
    (∀ p ∈ ([InputPair.ExtrinsicIndex ⟨4, [100]⟩ [0, 2, 3],
      InputPair.ExtrinsicIndex ⟨4, [101]⟩ [1],
      InputPair.ExtrinsicIndex ⟨4, [103]⟩ [0, 1],
      InputPair.DigestIndex ⟨4, [100]⟩ [1, 3],
      InputPair.DigestIndex ⟨4, [101]⟩ [1],
      InputPair.DigestIndex ⟨4, [102]⟩ [2],
      InputPair.DigestIndex ⟨4, [105]⟩ [1, 3]] : List InputPair),
      p.isExt = false → p.pairVal ≠ []) ∧
    ((∀ ec, (changesT 4).extrinsic_changes = some ec →
        ∀ kv ∈ ec.prospective ++ ec.committed, kv.2 ≠ ([] : List Nat)) →
      ∀ p ∈ ([InputPair.ExtrinsicIndex ⟨4, [100]⟩ [0, 2, 3],
        InputPair.ExtrinsicIndex ⟨4, [101]⟩ [1],
        InputPair.ExtrinsicIndex ⟨4, [103]⟩ [0, 1],
        InputPair.DigestIndex ⟨4, [100]⟩ [1, 3],
        InputPair.DigestIndex ⟨4, [101]⟩ [1],
        InputPair.DigestIndex ⟨4, [102]⟩ [2],
        InputPair.DigestIndex ⟨4, [105]⟩ [1, 3]] : List InputPair),
        p.pairVal ≠ []) :=
  prepare_input_values_nonempty dbiT backendT (some storageT) (changesT 4)
    [InputPair.ExtrinsicIndex ⟨4, [100]⟩ [0, 2, 3],
     InputPair.ExtrinsicIndex ⟨4, [101]⟩ [1],
     InputPair.ExtrinsicIndex ⟨4, [103]⟩ [0, 1],
     InputPair.DigestIndex ⟨4, [100]⟩ [1, 3],
     InputPair.DigestIndex ⟨4, [101]⟩ [1],
     InputPair.DigestIndex ⟨4, [102]⟩ [2],
     InputPair.DigestIndex ⟨4, [105]⟩ [1, 3]] rfl

/-- C7: every `DigestIndex` entry produced by `prepare_digest_input` lists only
block numbers yielded by the digest build iterator for the target block; the
set is never expanded past the iterator's immediate children. -/
theorem digest_values_from_iterator (dbi : Configuration → Nat → List Nat)
    (block : Nat) (config : Configuration) (storage : Storage) (l : List InputPair)
    (h : prepare_digest_input dbi block config storage = Except.ok l) :
    (∀ p ∈ l, p.isExt = false) ∧
    (∀ p ∈ l, ∀ b ∈ p.pairVal, b ∈ dbi config block) := by
  obtain ⟨m, hloop, hl⟩ := prepare_digest_input_ok dbi block config storage l h
  have hms : MapSorted m := digestLoop_ok_sorted storage _ [] m hloop List.Pairwise.nil
  subst hl
  constructor
  · intro p hp
    obtain ⟨kv, _, hkv⟩ := List.mem_map.mp hp
    rw [← hkv]
    rfl
  · intro p hp b hb
    obtain ⟨kv, hkvm, hkv⟩ := List.mem_map.mp hp
    rw [← hkv] at hb
    have hb' : b ∈ kv.2 := hb
    have hmem : (kv.1, kv.2) ∈ m := by rw [Prod.mk.eta]; exact hkvm
    have hlook := (mem_iff_mapLookup kv.1 kv.2 m hms).mp hmem
    have hsub := digestLoop_lookup_sub storage _ [] m hloop List.Pairwise.nil kv.1 b
      (by rw [hlook]; exact hb')
    rcases hsub with h' | h'
    · simp [mapLookup] at h'
    · exact h'

/-- Witness for C7 at the fixture's level-1 digest block 4. -/
theorem digest_values_from_iterator_witness :
    (∀ p ∈ ([InputPair.DigestIndex ⟨4, [100]⟩ [1, 3],
      InputPair.DigestIndex ⟨4, [101]⟩ [1],
      InputPair.DigestIndex ⟨4, [102]⟩ [2],
      InputPair.DigestIndex ⟨4, [105]⟩ [1, 3]] : List InputPair), p.isExt = false) ∧
    (∀ p ∈ ([InputPair.DigestIndex ⟨4, [100]⟩ [1, 3],
      InputPair.DigestIndex ⟨4, [101]⟩ [1],
      InputPair.DigestIndex ⟨4, [102]⟩ [2],
      InputPair.DigestIndex ⟨4, [105]⟩ [1, 3]] : List InputPair),
      ∀ b ∈ p.pairVal, b ∈ dbiT ⟨4, 2⟩ 4) :=
  digest_values_from_iterator dbiT 4 ⟨4, 2⟩ storageT _ rfl

/-- C8: a raw key that does not decode, or decodes to the variant not expected
by the scan at hand, leaves the digest accumulator untouched in that scan; and
digest preparation can only fail through a root lookup, never through a
decoding failure. -/
theorem scans_skip_undecodable_keys :
    (∀ (b : Nat) (m : SMap) (ks1 ks2 : List (List Nat)) (key : List Nat),
      (decodeInputKey key = none ∨
        ∃ dk, decodeInputKey key = some (InputKey.DigestIndex dk)) →
      List.foldl (scanStepExt b) m (ks1 ++ key :: ks2) =
        List.foldl (scanStepExt b) m (ks1 ++ ks2)) ∧
    (∀ (b : Nat) (m : SMap) (ks1 ks2 : List (List Nat)) (key : List Nat),
      (decodeInputKey key = none ∨
        ∃ ek, decodeInputKey key = some (InputKey.ExtrinsicIndex ek)) →
      List.foldl (scanStepDig b) m (ks1 ++ key :: ks2) =
        List.foldl (scanStepDig b) m (ks1 ++ ks2)) ∧
    (∀ (dbi : Configuration → Nat → List Nat) (block : Nat) (config : Configuration)
      (storage : Storage) (e : String),
      prepare_digest_input dbi block config storage = Except.error e →
      ∃ b ∈ dbi config block, storage.root b = Except.error e ∨
        (storage.root b = Except.ok none ∧
          e = "No changes trie root for block " ++ toString b)) := by
  refine ⟨?_, ?_, ?_⟩
  · intro b m ks1 ks2 key hd
    rw [List.foldl_append, List.foldl_append, List.foldl_cons]
    have hstep : scanStepExt b (List.foldl (scanStepExt b) m ks1) key =
        List.foldl (scanStepExt b) m ks1 := by
      unfold scanStepExt
      rcases hd with hd | ⟨dk, hd⟩ <;> rw [hd]
    rw [hstep]
  · intro b m ks1 ks2 key hd
    rw [List.foldl_append, List.foldl_append, List.foldl_cons]
    have hstep : scanStepDig b (List.foldl (scanStepDig b) m ks1) key =
        List.foldl (scanStepDig b) m ks1 := by
      unfold scanStepDig
      rcases hd with hd | ⟨ek, hd⟩ <;> rw [hd]
    rw [hstep]
  · intro dbi block config storage e herr
    exact digestLoop_error storage _ [] e
      (prepare_digest_input_error dbi block config storage e herr)

/-- Witness for C8: the empty raw key decodes to `none` and is skipped by both
scans; with all roots missing the only failure is the missing-root error. -/
theorem scans_skip_undecodable_keys_witness :
    (List.foldl (scanStepExt 1) [] ([] ++ ([] : List Nat) :: []) =
      List.foldl (scanStepExt 1) [] ([] ++ [])) ∧
    (List.foldl (scanStepDig 1) [] ([] ++ ([] : List Nat) :: []) =
      List.foldl (scanStepDig 1) [] ([] ++ [])) ∧
    ∃ b ∈ dbiT ⟨4, 2⟩ 4,
      storageNoRoots.root b = Except.error "No changes trie root for block 1" ∨
      (storageNoRoots.root b = Except.ok none ∧
        "No changes trie root for block 1" =
          "No changes trie root for block " ++ toString b) :=
  ⟨scans_skip_undecodable_keys.1 1 [] [] [] [] (Or.inl rfl),
   scans_skip_undecodable_keys.2.1 1 [] [] [] [] (Or.inl rfl),
   scans_skip_undecodable_keys.2.2 dbiT 4 ⟨4, 2⟩ storageNoRoots
     "No changes trie root for block 1" rfl⟩

/-- C9: every entry of a present `prepare_input` result is keyed to the block
recorded in the overlay's extrinsic-change record. -/
theorem entries_keyed_to_target_block (dbi : Configuration → Nat → List Nat)
    (backend : Backend) (st : Option Storage) (changes : OverlayedChanges)
    (l : List InputPair) (ec : ExtrinsicChanges)
    (h : prepare_input dbi backend st changes = Except.ok (some l))
    (hec : changes.extrinsic_changes = some ec) :
    ∀ p ∈ l, p.pairBlock = ec.block := by
  obtain ⟨storage, ec', l1, l2, hst, hec', he, hd, happ⟩ :=
    prepare_input_ok_some dbi backend st changes l h
  rw [hec] at hec'
  injection hec' with heq
  subst heq
  obtain ⟨m1, hb1, hl1⟩ := prepare_extrinsics_input_ok backend changes ec l1 he
  obtain ⟨m2, hb2, hl2⟩ := prepare_digest_input_ok dbi ec.block
    ec.changes_trie_config storage l2 hd
  subst happ hl1 hl2
  intro p hp
  rcases List.mem_append.mp hp with hp' | hp'
  · obtain ⟨kv, _, hkv⟩ := List.mem_map.mp hp'
    rw [← hkv]
    rfl
  · obtain ⟨kv, _, hkv⟩ := List.mem_map.mp hp'
    rw [← hkv]
    rfl

/-- Witness for C9 at the fixture's block 4, evaluated at the digest entry for
key `105`. -/
theorem entries_keyed_to_target_block_witness :
    (InputPair.DigestIndex ⟨4, [105]⟩ [1, 3]).pairBlock = (ecT 4).block :=
  entries_keyed_to_target_block dbiT backendT (some storageT) (changesT 4)
    [InputPair.ExtrinsicIndex ⟨4, [100]⟩ [0, 2, 3],
     InputPair.ExtrinsicIndex ⟨4, [101]⟩ [1],
     InputPair.ExtrinsicIndex ⟨4, [103]⟩ [0, 1],
     InputPair.DigestIndex ⟨4, [100]⟩ [1, 3],
     InputPair.DigestIndex ⟨4, [101]⟩ [1],
     InputPair.DigestIndex ⟨4, [102]⟩ [2],
     InputPair.DigestIndex ⟨4, [105]⟩ [1, 3]]
    (ecT 4) rfl rfl
    (InputPair.DigestIndex ⟨4, [105]⟩ [1, 3]) (by decide)

theorem buildExtrinsicMap_congr (backend1 backend2 : Backend)
    (changes : OverlayedChanges) (l : List (List Nat × List Nat)) (m : SMap)
    (hagree : ∀ key, key ∈ l.map Prod.fst → finalValueIsSome changes key = false →
      backend1.exists_storage key = backend2.exists_storage key) :
    buildExtrinsicMap backend1 changes m l = buildExtrinsicMap backend2 changes m l := by
  induction l generalizing m with
  | nil => rfl
  | cons kv rest ih =>
    obtain ⟨key, extrinsics⟩ := kv
    have hagree' : ∀ key', key' ∈ rest.map Prod.fst →
        finalValueIsSome changes key' = false →
        backend1.exists_storage key' = backend2.exists_storage key' :=
      fun key' hk' hlv =>
        hagree key' (by rw [List.map_cons]; exact List.mem_cons_of_mem _ hk') hlv
    simp only [buildExtrinsicMap]
    by_cases hlive : finalValueIsSome changes key
    · simp only [if_pos hlive]
      exact ih _ hagree'
    · have hb := hagree key (by rw [List.map_cons]; exact List.mem_cons_self _ _)
        (Bool.of_not_eq_true hlive)
      simp only [if_neg hlive]
      rw [hb]
      cases backend2.exists_storage key with
      | error e => rfl
      | ok b =>
        cases b with
        | true => exact ih _ hagree'
        | false => exact ih m hagree'

/-- C10: `prepare_extrinsics_input` never consults the backend for a key whose
final overlay value is live — two backends agreeing on the absent-valued keys
give identical results — and a backend error can only abort the preparation on
account of a key whose final overlay value is absent. -/
theorem backend_consulted_only_for_absent_keys :
    (∀ (backend1 backend2 : Backend) (changes : OverlayedChanges)
      (ec : ExtrinsicChanges),
      (∀ key, key ∈ (ec.prospective ++ ec.committed).map Prod.fst →
        finalValueIsSome changes key = false →
        backend1.exists_storage key = backend2.exists_storage key) →
      prepare_extrinsics_input backend1 changes ec =
        prepare_extrinsics_input backend2 changes ec) ∧
    (∀ (backend : Backend) (changes : OverlayedChanges) (ec : ExtrinsicChanges)
      (e : String),
      prepare_extrinsics_input backend changes ec = Except.error e →
      ∃ key, key ∈ (ec.prospective ++ ec.committed).map Prod.fst ∧
        finalValueIsSome changes key = false ∧
        backend.exists_storage key = Except.error e) := by
  constructor
  · intro backend1 backend2 changes ec hagree
    unfold prepare_extrinsics_input
    rw [buildExtrinsicMap_congr backend1 backend2 changes _ [] hagree]
  · intro backend changes ec e herr
    obtain ⟨key, exts, hmem, hlive, hb⟩ := buildExtrinsicMap_error backend changes _ [] e
      (prepare_extrinsics_input_error backend changes ec e herr)
    exact ⟨key, List.mem_map_of_mem Prod.fst hmem, hlive, hb⟩

/-- Witness for C10: making the backend fail on the live keys does not change
the result, and a failure on the absent-valued key `103` aborts with that
key's error. -/
theorem backend_consulted_only_for_absent_keys_witness :
    prepare_extrinsics_input backendT (changesT 5) (ecT 5) =
      prepare_extrinsics_input backendU (changesT 5) (ecT 5) ∧
    ∃ key, key ∈ ((ecT 5).prospective ++ (ecT 5).committed).map Prod.fst ∧
      finalValueIsSome (changesT 5) key = false ∧
      backendV.exists_storage key = Except.error "boom" :=
  ⟨backend_consulted_only_for_absent_keys.1 backendT backendU (changesT 5) (ecT 5)
    (by
      intro key hk hlive
      have hcases : key = [100] ∨ key = [103] ∨ key = [100] ∨ key = [101] := by
        simpa [ecT] using hk
      rcases hcases with h' | h' | h' | h' <;> subst h'
      · exact absurd hlive (by decide)
      · rfl
      · exact absurd hlive (by decide)
      · exact absurd hlive (by decide)),
   backend_consulted_only_for_absent_keys.2 backendV (changesT 5) (ecT 5) "boom" rfl⟩
